import Mathlib

/-!
Verification of the numeric/bitstream core of `rsacrypt.c`, a 32-bit RSA
file encryption tool.  Every definition in this file is a shallow embedding
of the corresponding C function from `src/rsacrypt.c`; machine integers are
modelled as `Nat` (for C `unsigned` and `unsigned long long`) and `Int`
(for C `int` and `off_t`), with explicit reductions modulo `2 ^ 32` or
`2 ^ 64` wherever C wrap-around can actually occur.
-/

namespace Rsacrypt

/-- The number of representable values of a C `unsigned` (32-bit). -/
def U32 : Nat := 2 ^ 32

/-- C function `archbits`: on a 32-bit platform (`sizeof(unsigned) == 4`,
the only case in which the program runs at all) it returns 31. -/
def archbits : Nat := 31

/-- Loop of C function `bitsize`: `for (i = archbits(); i != 0; i--)
{ if (number >> i) return i + 1; } return 0;`.  The argument of
`bitsizeAux` is the loop counter `i`; the loop body runs for
`i = 31, 30, ..., 1` and never tests bit 0. -/
def bitsizeAux (number : Nat) : Nat → Nat
  | 0 => 0
  | i + 1 => if number >>> (i + 1) ≠ 0 then (i + 1) + 1 else bitsizeAux number i

/-- C function `bitsize`: number of bits needed to represent `number`,
as actually computed by the C loop (which starts at bit index 31 and
stops before testing bit index 0). -/
def bitsize (number : Nat) : Nat := bitsizeAux number archbits

/-- One iteration of the `ab_mod_n` loop body for bit index `i`:
`D = (D * D) % N; if (B & (1 << i)) D = (D * A) % N;`.
For a 32-bit value `B` the C test `B & (1 << i)` is nonzero exactly when
bit `i` of `B` is set (also for `i = 31`, where gcc evaluates `1 << 31`
to `INT_MIN`, whose conversion to `unsigned long long` has bits 31..63
set, of which a 32-bit `B` can only have bit 31).  The C variable `C` is
dead (never read) and is omitted. -/
def abStep (A N B D : Nat) (i : Nat) : Nat :=
  let D1 := (D * D) % N
  if B.testBit i then (D1 * A) % N else D1

/-- Loop of C function `ab_mod_n`: `for (i = archbits(); 1; i--) { ...;
if (i == 0) break; }`, i.e. the body runs for `i = 31, 30, ..., 0`. -/
def abLoop (A B N : Nat) : Nat → Nat → Nat
  | D, 0 => abStep A N B D 0
  | D, i + 1 => abLoop A B N (abStep A N B D (i + 1)) i

/-- C function `ab_mod_n`: computes `a ^ b mod n` by square-and-multiply.
The intermediate products are carried in `unsigned long long`; since the
accumulator is always a residue `< n < 2 ^ 32`, the products are `< 2 ^ 64`
and the C 64-bit arithmetic is exact, so the loop is modelled with exact
`Nat` arithmetic.  The final `return (unsigned) D` truncates to 32 bits,
modelled by the reduction modulo `U32`. -/
def ab_mod_n (a b n : Nat) : Nat := abLoop a b n 1 archbits % U32

/-- Conversion of a C `unsigned` value to `int`, as gcc implements it
(two's-complement wrap-around; implementation-defined in ISO C, documented
behaviour of the compiler named in the source header). -/
def toInt32 (x : Nat) : Int :=
  if x % U32 < 2 ^ 31 then ((x % U32 : Nat) : Int) else ((x % U32 : Nat) : Int) - (U32 : Int)

/-- Conversion of a C `int` (or wider signed) value to `unsigned`:
reduction modulo `2 ^ 32`. -/
def toU32 (x : Int) : Nat := (x % (U32 : Int)).toNat

/-- The `while (y3 != 0)` loop of C function `check_gcd`, on the Bezout
triples `(x1, x2, x3)` and `(y1, y2, y3)`.  The C `int` arithmetic is
modelled by exact `Int` arithmetic: for the argument ranges for which any
correctness claim is made (`d, f < 2 ^ 31`) the classical coefficient
bounds of the extended Euclidean algorithm (proved below as the
`natAbs`-invariant) keep every intermediate value inside the `int` range,
so no signed overflow occurs in C.  C integer division truncates toward
zero, which is `Int.tdiv`.  The `fuel` argument is a strict upper bound
on `y3.natAbs`; since `y3` strictly decreases it is never exhausted from
`check_gcd` below. -/
def gcdLoop (fN : Nat) : Nat → Int → Int → Int → Int → Int → Int → Nat
  | 0, _, _, _, _, _, _ => 0
  | fuel + 1, x1, x2, x3, y1, y2, y3 =>
    if y3 = 0 then 0
    else if y3 = 1 then
      (if y2 < 0 then toU32 ((fN : Int) + y2) else toU32 y2)
    else
      gcdLoop fN fuel y1 y2 y3 (x1 - x3.tdiv y3 * y1) (x2 - x3.tdiv y3 * y2)
        (x3 - x3.tdiv y3 * y3)

/-- C function `check_gcd`: extended Euclidean algorithm.  Initial state
`x = (1, 0, f)`, `y = (0, 1, d)` after the implementation-defined
`unsigned`-to-`int` conversions of the parameters.  Returns the
multiplicative inverse of `d` mod `f` normalized by `f + y2` when `y2`
is negative, or the sentinel `0` when `gcd(d, f) != 1`. -/
def check_gcd (d f : Nat) : Nat :=
  gcdLoop f (2 ^ 31 + 1) 1 0 (toInt32 f) 0 1 (toInt32 d)

/-- The `for (i = 1; i < f; i++)` loop of C function `find_inverse`.
The product `i * d` is computed in C `unsigned` arithmetic, hence the
reduction modulo `U32` before the test `(i * d) % f == 1`.  The `fuel`
argument counts the remaining iterations `f - i`. -/
def findInvAux (d f : Nat) : Nat → Nat → Nat
  | _, 0 => 0
  | i, fuel + 1 => if i * d % U32 % f = 1 then i else findInvAux d f (i + 1) fuel

/-- C function `find_inverse`: naive linear scan for the multiplicative
inverse of `d` modulo `f`; returns `0` if no `i` in `[1, f)` satisfies
the (wrapping) test. -/
def find_inverse (d f : Nat) : Nat := findInvAux d f 1 (f - 1)

/-- C function `is_prime`: trial division of `p` by every `i` in
`[2, maxdiv]` where `maxdiv = ceil((unsigned) sqrt(p))`.  The cast to
`unsigned` is applied to the `double` before `ceil`, so `maxdiv` is the
truncation of `sqrt(p)`; for `p < 2 ^ 32` the correctly rounded IEEE
double square root truncates to exactly `Nat.sqrt p` (the rounding error
is orders of magnitude below the distance to the next integer unless `p`
is a perfect square, where `sqrt` is exact).  The list
`List.range' 2 (Nat.sqrt p - 1)` is `[2, 3, ..., Nat.sqrt p]`. -/
def is_prime (p : Nat) : Bool :=
  (List.range' 2 (Nat.sqrt p - 1)).all (fun i => p % i != 0)

/-- Loop of C function `find_next_prime`: `while (n + 1 != 0) { test n;
n += 2; }` on an odd unsigned `n`, so the (failing) exit happens exactly
when `n = 2 ^ 32 - 1`.  `fuel` bounds the remaining iterations; the bound
`2 ^ 31` used below suffices for every odd start below `2 ^ 32`. -/
def fnpLoop : Nat → Nat → Option Nat
  | _, 0 => none
  | n, fuel + 1 =>
    if n + 1 = U32 then none
    else if is_prime n then some n
    else fnpLoop (n + 2) fuel

/-- C function `find_next_prime`: makes `n` odd (`n |= 1`, which is `n + 1`
for even `n`) and searches upward in steps of `2`; `some r` models
printing `r` as prime and exiting successfully, `none` the failure exit
after exhausting the 32-bit range. -/
def find_next_prime (n : Nat) : Option Nat := fnpLoop (n ||| 1) (2 ^ 31)

inductive GenError where
  | overflow
  | noValidExponent
  deriving DecidableEq

deriving instance DecidableEq for Except

/-- The exponent-search loop of C function `generate_keys`:
`for (e = 2; e < f; e++) { if ((d = check_gcd(e, f)) != 0) break; }`.
`fuel` is exactly the remaining iteration count `f - e`; when it runs out
the counter `e` has reached `f` and `d` still holds `0` (its value after
the last failed test, or its initializer). -/
def genLoop (f : Nat) : Nat → Nat → Nat × Nat
  | e, 0 => (e, 0)
  | e, fuel + 1 =>
    if check_gcd e f ≠ 0 then (e, check_gcd e f) else genLoop f (e + 1) fuel

/-- C function `generate_keys` (key derivation; printing/`exit` modelled by
the return value).  `n = p * q` and `f = (p - 1) * (q - 1)` are computed in
C `unsigned` arithmetic, hence the reductions modulo `U32` and the wrapping
unsigned decrements `p - 1`, `q - 1`. -/
def generate_keys (p q : Nat) : Except GenError (Nat × Nat × Nat) :=
  let n := p * q % U32
  if bitsize p + bitsize q > 32 then Except.error GenError.overflow
  else
    let f := (p + (U32 - 1)) % U32 * ((q + (U32 - 1)) % U32) % U32
    let ed := genLoop f 2 (f - 2)
    if ed.1 = f then Except.error GenError.noValidExponent
    else Except.ok (ed.1, n, ed.2)

/-- A value `e` has a multiplicative inverse modulo `f` (stated so that it
is also meaningful for `f = 1`, where everything is invertible). -/
def HasInvMod (e f : Nat) : Prop := ∃ x, x < f ∧ x * e % f = 1 % f

/-!
Bitstream packer/unpacker.  Byte buffers are modelled as total functions
`Nat → Nat` (byte index to byte value); the C buffers are finite, but
every use below stays within the allocated region plus the deliberate
trailing slack the program allocates (`2 * sizeof(int)` extra bytes), and
freshly `malloc`-ed memory delivered by the operating system is zero, so
out-of-range reads are modelled as 0 and the slack as zero bytes.
-/

/-- A single byte store, `*buf = v` at index `i`. -/
def setByte (B : Nat → Nat) (i v : Nat) : Nat → Nat :=
  fun j => if j = i then v else B j

/-- Loop of C function `readbits`: the cursor is the pair
`(pos, bitpos)` (byte pointer offset and bit offset), `n` counts the
remaining bits, `result`/`counter` are the accumulator and the write
index into it.  Returns `(result, pos, bitpos)`. -/
def readbitsAux (B : Nat → Nat) : Nat → Nat → Nat → Nat → Nat → Nat × Nat × Nat
  | pos, bitpos, 0, result, _counter => (result, pos, bitpos)
  | pos, bitpos, n + 1, result, counter =>
    let result1 := result ||| (((B pos >>> bitpos) &&& 1) <<< counter)
    if bitpos + 1 ≥ 8 then readbitsAux B (pos + 1) 0 n result1 (counter + 1)
    else readbitsAux B pos (bitpos + 1) n result1 (counter + 1)

/-- C function `readbits`. -/
def readbits (B : Nat → Nat) (pos bitpos n : Nat) : Nat × Nat × Nat :=
  readbitsAux B pos bitpos n 0 0

/-- Loop of C function `writebits`: ORs bit `counter` of `value` into the
byte at the cursor, advancing the cursor; returns the updated buffer and
cursor. -/
def writebitsAux : (Nat → Nat) → Nat → Nat → Nat → Nat → Nat → (Nat → Nat) × Nat × Nat
  | B, _pos, _bitpos, 0, _value, _counter => (B, _pos, _bitpos)
  | B, pos, bitpos, n + 1, value, counter =>
    let B1 := setByte B pos (B pos ||| (((value >>> counter) &&& 1) <<< bitpos))
    if bitpos + 1 ≥ 8 then writebitsAux B1 (pos + 1) 0 n value (counter + 1)
    else writebitsAux B1 pos (bitpos + 1) n value (counter + 1)

/-- C function `writebits`. -/
def writebits (B : Nat → Nat) (pos bitpos n value : Nat) : (Nat → Nat) × Nat × Nat :=
  writebitsAux B pos bitpos n value 0

/-- Bit `i` of the byte stream held in buffer `B` (LSB-first inside each
byte), as a boolean. -/
def bitOf (B : Nat → Nat) (i : Nat) : Bool := (B (i / 8)).testBit (i % 8)

/-- The value of the `n` bits of the stream starting at bit position `p`,
LSB first — the reference meaning of a `readbits` call. -/
def streamVal (B : Nat → Nat) : Nat → Nat → Nat
  | _, 0 => 0
  | p, n + 1 => (bitOf B p).toNat + 2 * streamVal B (p + 1) n

/-- All bytes of the buffer are in range. -/
def Bytes256 (B : Nat → Nat) : Prop := ∀ j, B j < 256

/-- Every stream bit at position `≥ P` is clear. -/
def ZeroFrom (B : Nat → Nat) (P : Nat) : Prop := ∀ r, P ≤ r → bitOf B r = false

/-- Sequential `writebits` calls threading the shared cursor, as the C
callers do; each list entry is a `(width, value)` pair. -/
def writeSeq : (Nat → Nat) → Nat → Nat → List (Nat × Nat) → (Nat → Nat) × Nat × Nat
  | B, pos, bitpos, [] => (B, pos, bitpos)
  | B, pos, bitpos, nv :: rest =>
    let r := writebits B pos bitpos nv.1 nv.2
    writeSeq r.1 r.2.1 r.2.2 rest

/-- Sequential `readbits` calls threading the shared cursor, collecting
the values read. -/
def readSeq : (Nat → Nat) → Nat → Nat → List Nat → List Nat × Nat × Nat
  | _, pos, bitpos, [] => ([], pos, bitpos)
  | B, pos, bitpos, n :: rest =>
    let r := readbits B pos bitpos n
    let rr := readSeq B r.2.1 r.2.2 rest
    (r.1 :: rr.1, rr.2)

/-- Total number of bits of a width/value list. -/
def totalBits (l : List (Nat × Nat)) : Nat := (l.map Prod.fst).sum

/-- The bits from position `P` on hold the consecutive fields of `l`. -/
def ValsAt (W : Nat → Nat) : Nat → List (Nat × Nat) → Prop
  | _, [] => True
  | P, nv :: rest =>
    (∀ k, k < nv.1 → bitOf W (P + k) = nv.2.testBit k) ∧ ValsAt W (P + nv.1) rest

/-!
Encryption / decryption drivers.  File contents are byte lists; the
in-memory buffers are the `Nat → Nat` byte functions used by the
packer, zero beyond the data (`read_file` over-allocates
`2 * sizeof(int)` slack bytes and fresh memory from the operating
system is zeroed, which is what the OR-writing `writebits` relies on).
The `off_t` header is 8 bytes, little-endian (x86), signed.
-/

inductive DecError where
  | corrupt
  deriving DecidableEq

/-- The unsigned 32-bit decrement `x - 1` (wraps at 0). -/
def u32dec (x : Nat) : Nat := (x + (U32 - 1)) % U32

/-- The 8 little-endian bytes of the `off_t` header written by
`encrypt_file` (`write(fd, &buflen, sizeof(buflen))`). -/
def le64 (x : Nat) : List Nat :=
  [x % 256, x / 2 ^ 8 % 256, x / 2 ^ 16 % 256, x / 2 ^ 24 % 256,
   x / 2 ^ 32 % 256, x / 2 ^ 40 % 256, x / 2 ^ 48 % 256, x / 2 ^ 56 % 256]

/-- The header read by `decrypt_file` (`origfilelen = *(off_t *) buf`):
the first 8 bytes, little-endian, as a signed 64-bit value. -/
def hdr (c : List Nat) : Int :=
  let u : Nat := c.getD 0 0 + c.getD 1 0 * 2 ^ 8 + c.getD 2 0 * 2 ^ 16 +
    c.getD 3 0 * 2 ^ 24 + c.getD 4 0 * 2 ^ 32 + c.getD 5 0 * 2 ^ 40 +
    c.getD 6 0 * 2 ^ 48 + c.getD 7 0 * 2 ^ 56
  if u < 2 ^ 63 then (u : Int) else (u : Int) - 2 ^ 64

/-- A byte list as a buffer function (zero-filled beyond the end). -/
def ofList (l : List Nat) : Nat → Nat := fun i => l.getD i 0

/-- The encryption loop of `encrypt_file`:
`while (text < buf + buflen) writebits(..., destbits, ab_mod_n(readbits(..., srcbits), e, n));`.
State: source cursor `(sp, sb)`, destination buffer `D` and cursor
`(dp, db)`.  `fuel` bounds the remaining iterations (the source cursor
advances `srcbits ≥ 1` bits per round, so `8 * L + 1` from the start is
always enough). -/
def encLoop (B : Nat → Nat) (L e n srcbits destbits : Nat) :
    Nat → Nat → Nat → (Nat → Nat) → Nat → Nat → (Nat → Nat) × Nat × Nat
  | 0, _, _, D, dp, db => (D, dp, db)
  | fuel + 1, sp, sb, D, dp, db =>
    if sp < L then
      let r := readbits B sp sb srcbits
      let w := writebits D dp db destbits (ab_mod_n r.1 e n)
      encLoop B L e n srcbits destbits fuel r.2.1 r.2.2 w.1 w.2.1 w.2.2
    else (D, dp, db)

/-- C function `encrypt_file` (the pure transformation: file reading,
rewriting and `exit` are modelled by input/output lists).  The output is
the 8-byte original-length header followed by the `dest_text - destbuf + 1`
bytes of the destination buffer. -/
def encrypt_file (B : List Nat) (e n : Nat) : List Nat :=
  let L := B.length
  let destbits := bitsize n
  let srcbits := u32dec destbits
  let w := encLoop (ofList B) L e n srcbits destbits (8 * L + 1) 0 0
    (fun _ => 0) 0 0
  le64 L ++ (List.range (w.2.1 + 1)).map w.1

/-- Truncation of a wider signed value to a C `int`
(two's-complement, as gcc does). -/
def wrap32 (x : Int) : Int :=
  let r := x % (U32 : Int)
  if r < 2 ^ 31 then r else r - (U32 : Int)

/-- The header sanity check of `decrypt_file`:
`lendiff = origfilelen - (buflen - sizeof(off_t));`
`maxdiff = origfilelen / dstbits + 1 + 2 * sizeof(int);`
`origfilelen < 0 || lendiff < -maxdiff || lendiff > maxdiff`.
Both `lendiff` and `maxdiff` are `int` variables, hence the `wrap32`
truncations of the 64-bit intermediate values; `off_t` division
truncates toward zero (`Int.tdiv`).  (The model takes `buflen ≥ 8` for
granted when simplifying `buflen - sizeof(off_t)`; shorter files make
the C code read uninitialized header bytes anyway.) -/
def decrypt_check (L : Int) (buflen : Nat) (dstbits : Nat) : Bool :=
  let lendiff := wrap32 (L - ((buflen : Int) - 8))
  let maxdiff := wrap32 (L.tdiv (dstbits : Int) + 1 + 2 * 4)
  decide (L < 0) || decide (lendiff < -maxdiff) || decide (lendiff > maxdiff)

/-- The decryption loop of `decrypt_file`:
`while (decrpt_dst <= endmark) writebits(..., dstbits, ab_mod_n(readbits(..., srcbits), d, n));`
— note the loop condition is on the *destination* byte position. -/
def decLoop (C : Nat → Nat) (L d n srcbits dstbits : Nat) :
    Nat → Nat → Nat → (Nat → Nat) → Nat → Nat → (Nat → Nat) × Nat × Nat
  | 0, _, _, D, dp, db => (D, dp, db)
  | fuel + 1, sp, sb, D, dp, db =>
    if dp ≤ L then
      let r := readbits C sp sb srcbits
      let w := writebits D dp db dstbits (ab_mod_n r.1 d n)
      decLoop C L d n srcbits dstbits fuel r.2.1 r.2.2 w.1 w.2.1 w.2.2
    else (D, dp, db)

/-- The decryption transform of `decrypt_file` after the header check:
runs the loop over the ciphertext data (which starts at byte 8, after
the header) and truncates the output to the original length. -/
def decrypt_run (c : List Nat) (d n : Nat) : List Nat :=
  let srcbits := bitsize n
  let dstbits := u32dec srcbits
  let L := (hdr c).toNat
  let w := decLoop (fun i => c.getD (8 + i) 0) L d n srcbits dstbits
    (8 * L + 9) 0 0 (fun _ => 0) 0 0
  (List.range L).map w.1

/-- C function `decrypt_file`: header check, then the decryption loop;
`Except.error DecError.corrupt` models the `"File is corrupted"` exit. -/
def decrypt_file (c : List Nat) (d n : Nat) : Except DecError (List Nat) :=
  if decrypt_check (hdr c) c.length (u32dec (bitsize n)) then
    Except.error DecError.corrupt
  else Except.ok (decrypt_run c d n)

/-- Ceiling division, used to count the blocks processed by the loops. -/
def ceilDivN (A s : Nat) : Nat := (A + s - 1) / s

/-- The `srcbits`-bit plaintext block `j` of the source stream together
with its encryption — the value handled by iteration `j` of the
encryption loop. -/
def encBlock (Bsrc : Nat → Nat) (e n s j : Nat) : Nat :=
  ab_mod_n (streamVal Bsrc (j * s) s) e n

/-- The `srcbits`-bit ciphertext block `j` of the ciphertext stream
together with its decryption — the value handled by iteration `j` of the
decryption loop. -/
def decBlock (C : Nat → Nat) (d n t j : Nat) : Nat :=
  ab_mod_n (streamVal C (j * t) t) d n

lemma abStep_eq (A N B D i : Nat) :
    abStep A N B D i = D ^ 2 * A ^ (B / 2 ^ i % 2) % N := by
  rw [abStep, Nat.testBit_to_div_mod]
  rcases Nat.mod_two_eq_zero_or_one (B / 2 ^ i) with h2 | h2
  · rw [h2]
    simp only [decide_eq_true_eq, if_neg (by omega : ¬ (0 : Nat) = 1),
      pow_zero, mul_one, pow_two]
  · rw [h2]
    simp only [decide_eq_true_eq, if_true, eq_self_iff_true, pow_one, pow_two,
      Nat.mod_mul_mod]

lemma abLoop_spec (A B N : Nat) :
    ∀ (i : Nat) (D : Nat),
      abLoop A B N D i = D ^ 2 ^ (i + 1) * A ^ (B % 2 ^ (i + 1)) % N := by
  intro i
  induction i with
  | zero =>
    intro D
    show abStep A N B D 0 = D ^ 2 ^ 1 * A ^ (B % 2 ^ 1) % N
    rw [abStep_eq]
    norm_num
  | succ i ih =>
    intro D
    show abLoop A B N (abStep A N B D (i + 1)) i =
      D ^ 2 ^ (i + 1 + 1) * A ^ (B % 2 ^ (i + 1 + 1)) % N
    rw [ih, abStep_eq]
    have hsplit : B % 2 ^ (i + 1 + 1) =
        B % 2 ^ (i + 1) + 2 ^ (i + 1) * (B / 2 ^ (i + 1) % 2) := by
      rw [pow_succ]
      exact Nat.mod_mul
    have hpow : (D ^ 2 * A ^ (B / 2 ^ (i + 1) % 2) % N) ^ 2 ^ (i + 1) % N =
        (D ^ 2 * A ^ (B / 2 ^ (i + 1) % 2)) ^ 2 ^ (i + 1) % N := by
      rw [← Nat.pow_mod]
    calc (D ^ 2 * A ^ (B / 2 ^ (i + 1) % 2) % N) ^ 2 ^ (i + 1) *
          A ^ (B % 2 ^ (i + 1)) % N
        = (D ^ 2 * A ^ (B / 2 ^ (i + 1) % 2) % N) ^ 2 ^ (i + 1) % N *
          A ^ (B % 2 ^ (i + 1)) % N := by rw [Nat.mod_mul_mod]
      _ = (D ^ 2 * A ^ (B / 2 ^ (i + 1) % 2)) ^ 2 ^ (i + 1) % N *
          A ^ (B % 2 ^ (i + 1)) % N := by rw [hpow]
      _ = (D ^ 2 * A ^ (B / 2 ^ (i + 1) % 2)) ^ 2 ^ (i + 1) *
          A ^ (B % 2 ^ (i + 1)) % N := by rw [Nat.mod_mul_mod]
      _ = D ^ 2 ^ (i + 1 + 1) * A ^ (B % 2 ^ (i + 1 + 1)) % N := by
          rw [hsplit, mul_pow, ← pow_mul, ← pow_mul, pow_add]
          ring_nf

lemma ab_mod_n_spec (a b n : Nat) (hb : b < U32) (hn : 0 < n) (hnu : n < U32) :
    ab_mod_n a b n = a ^ b % n := by
  have h := abLoop_spec a b n archbits 1
  rw [ab_mod_n, h, one_pow, one_mul]
  have hb' : b % 2 ^ (archbits + 1) = b := Nat.mod_eq_of_lt hb
  rw [hb']
  exact Nat.mod_eq_of_lt (lt_trans (Nat.mod_lt _ hn) hnu)

lemma shiftRight_ne_zero_iff (x k : Nat) : x >>> k ≠ 0 ↔ 2 ^ k ≤ x := by
  rw [Nat.shiftRight_eq_div_pow, Ne, Nat.div_eq_zero_iff (Nat.pos_pow_of_pos k (by omega)),
    not_lt]

lemma bitsizeAux_eq_size (x : Nat) :
    ∀ i, 2 ≤ Nat.size x → Nat.size x ≤ i + 1 → bitsizeAux x i = Nat.size x := by
  intro i
  induction i with
  | zero => intro h2 h1; omega
  | succ i ih =>
    intro h2 hle
    rw [bitsizeAux]
    by_cases h : x >>> (i + 1) ≠ 0
    · rw [if_pos h]
      rw [shiftRight_ne_zero_iff, ← Nat.lt_size] at h
      omega
    · rw [if_neg h]
      rw [not_not] at h
      have h' : ¬ 2 ^ (i + 1) ≤ x := by
        rw [← shiftRight_ne_zero_iff]
        simpa using h
      rw [← Nat.lt_size, not_lt] at h'
      exact ih h2 h'

/-- For arguments in `[2, 2^32)` the C `bitsize` agrees with the true
minimal bit count `Nat.size`. -/
lemma bitsize_eq_size (x : Nat) (h2 : 2 ≤ x) (hu : x < U32) :
    bitsize x = Nat.size x := by
  have hs2 : 2 ≤ Nat.size x := by
    have : 1 < Nat.size x := Nat.lt_size.mpr (by simpa using h2)
    omega
  have hs32 : Nat.size x ≤ 32 := Nat.size_le.mpr hu
  exact bitsizeAux_eq_size x archbits hs2 (by simpa [archbits] using hs32)

lemma toInt32_of_lt {x : Nat} (h : x < 2 ^ 31) : toInt32 x = (x : Int) := by
  have hx : x % U32 = x := Nat.mod_eq_of_lt (by unfold U32; omega)
  rw [toInt32, hx, if_pos h]

lemma toU32_of_range {x : Int} (h0 : 0 ≤ x) (h : x < (U32 : Int)) :
    toU32 x = x.toNat := by
  rw [toU32, Int.emod_eq_of_lt h0 h]

lemma gcdLoop_spec :
    ∀ (fuel : Nat) (fN dN : Nat) (x1 x2 x3 y1 y2 y3 : Int),
      y3.natAbs < fuel →
      1 < fN → fN < 2 ^ 31 →
      2 ≤ x3 → 0 ≤ y3 →
      x1 * fN + x2 * dN = x3 →
      y1 * fN + y2 * dN = y3 →
      Nat.gcd x3.toNat y3.toNat = Nat.gcd fN dN →
      x2 * y2 ≤ 0 →
      (x2.natAbs : Int) * y3 + (y2.natAbs : Int) * x3 = (fN : Int) →
      ((Nat.gcd fN dN = 1 →
          gcdLoop fN fuel x1 x2 x3 y1 y2 y3 * dN % fN = 1 ∧
          gcdLoop fN fuel x1 x2 x3 y1 y2 y3 < fN) ∧
        (Nat.gcd fN dN ≠ 1 → gcdLoop fN fuel x1 x2 x3 y1 y2 y3 = 0)) := by
  intro fuel
  induction fuel with
  | zero =>
    intro fN dN x1 x2 x3 y1 y2 y3 hfuel
    exact absurd hfuel (Nat.not_lt_zero _)
  | succ fuel ih =>
    intro fN dN x1 x2 x3 y1 y2 y3 hfuel hf hfu hx3 hy3 hlin1 hlin2 hgcd hsign hJ
    rw [gcdLoop]
    by_cases hy0 : y3 = 0
    · rw [if_pos hy0]
      subst hy0
      have hge : 2 ≤ Nat.gcd fN dN := by
        rw [← hgcd]
        simp only [Int.toNat_zero, Nat.gcd_zero_right]
        omega
      exact ⟨fun h1 => absurd h1 (by omega), fun _ => rfl⟩
    · rw [if_neg hy0]
      by_cases hy1 : y3 = 1
      · rw [if_pos hy1]
        subst hy1
        have hg1 : Nat.gcd fN dN = 1 := by
          rw [← hgcd]
          simp
        refine ⟨fun _ => ?_, fun hne => absurd hg1 hne⟩
        -- bound |y2| < fN from the magnitude invariant
        have hyabs : 2 * (y2.natAbs : Int) ≤ (fN : Int) := by
          have h1 : (y2.natAbs : Int) * 2 ≤ (y2.natAbs : Int) * x3 :=
            mul_le_mul_of_nonneg_left hx3 (by positivity)
          have h2 : (0 : Int) ≤ (x2.natAbs : Int) * 1 := by positivity
          linarith [hJ]
        have hybound : -(fN : Int) < y2 ∧ y2 < (fN : Int) := by omega
        have hU : (fN : Int) < (U32 : Int) := by
          have : (2 ^ 31 : Int) < (U32 : Int) := by norm_num [U32]
          omega
        -- the returned value, as an integer
        by_cases hneg : y2 < 0
        · rw [if_pos hneg]
          have h0 : (0 : Int) ≤ (fN : Int) + y2 := by omega
          have h1 : (fN : Int) + y2 < (U32 : Int) := by omega
          rw [toU32_of_range h0 h1]
          have hrInt : ((((fN : Int) + y2).toNat : Nat) : Int) = (fN : Int) + y2 :=
            Int.toNat_of_nonneg h0
          constructor
          · -- inverse property
            have hmod : (((fN : Int) + y2) * (dN : Int)) % (fN : Int) = 1 := by
              have he : ((fN : Int) + y2) * (dN : Int) =
                  1 + (fN : Int) * ((dN : Int) - y1) := by linear_combination hlin2
              rw [he, Int.add_mul_emod_self_left]
              exact Int.emod_eq_of_lt (by omega) (by exact_mod_cast hf)
            have hcast : ((((fN : Int) + y2).toNat * dN % fN : Nat) : Int) =
                (((fN : Int) + y2) * (dN : Int)) % (fN : Int) := by
              push_cast [hrInt]
              ring_nf
            omega
          · -- range
            omega
        · rw [if_neg hneg]
          push_neg at hneg
          have h1 : y2 < (U32 : Int) := by omega
          rw [toU32_of_range hneg h1]
          have hrInt : ((y2.toNat : Nat) : Int) = y2 := Int.toNat_of_nonneg hneg
          constructor
          · have hmod : (y2 * (dN : Int)) % (fN : Int) = 1 := by
              have he : y2 * (dN : Int) = 1 + (fN : Int) * (-y1) := by
                linear_combination hlin2
              rw [he, Int.add_mul_emod_self_left]
              exact Int.emod_eq_of_lt (by omega) (by exact_mod_cast hf)
            have hcast : ((y2.toNat * dN % fN : Nat) : Int) =
                (y2 * (dN : Int)) % (fN : Int) := by
              push_cast [hrInt]
              ring_nf
            omega
          · -- range: y2 < fN and y2 = fN is impossible, but we even have y2 < fN
            omega
      · rw [if_neg hy1]
        have hy2' : 2 ≤ y3 := by omega
        set q := x3.tdiv y3 with hqdef
        have hq0 : 0 ≤ q := Int.tdiv_nonneg (by omega) (by omega)
        have htmod : x3 - q * y3 = x3.tmod y3 := by
          rw [Int.tmod_def]
          ring
        have ht0 : 0 ≤ x3 - q * y3 := by
          rw [htmod]
          exact Int.tmod_nonneg _ (by omega)
        have htlt : x3 - q * y3 < y3 := by
          rw [htmod]
          exact Int.tmod_lt_of_pos _ (by omega)
        -- gcd invariant for the next state
        have hgcd' : Nat.gcd y3.toNat (x3 - q * y3).toNat = Nat.gcd fN dN := by
          rw [← hgcd]
          have ha : x3 = (x3.toNat : Int) := (Int.toNat_of_nonneg (by omega)).symm
          have hb : y3 = (y3.toNat : Int) := (Int.toNat_of_nonneg hy3).symm
          have htn : (x3 - q * y3).toNat = x3.toNat % y3.toNat := by
            have : x3 - q * y3 = ((x3.toNat % y3.toNat : Nat) : Int) := by
              rw [htmod, Int.ofNat_tmod]
              rw [← ha, ← hb]
            rw [this, Int.toNat_natCast]
          rw [htn, Nat.gcd_comm y3.toNat, ← Nat.gcd_rec, Nat.gcd_comm]
        -- sign analysis
        rcases lt_trichotomy y2 0 with hneg | hzero | hpos
        · have hx2 : 0 ≤ x2 := by
            by_contra h'
            push_neg at h'
            nlinarith [mul_pos_of_neg_of_neg h' hneg]
          have hqy : q * y2 ≤ 0 := mul_nonpos_iff.mpr (Or.inl ⟨hq0, le_of_lt hneg⟩)
          have ht2 : 0 ≤ x2 - q * y2 := by linarith
          have hkey : ((x2 - q * y2).natAbs : Int) =
              (x2.natAbs : Int) + q * (y2.natAbs : Int) := by
            rw [Int.natAbs_of_nonneg ht2, Int.natAbs_of_nonneg hx2,
              Int.ofNat_natAbs_of_nonpos (le_of_lt hneg)]
            ring
          exact ih fN dN y1 y2 y3 (x1 - q * y1) (x2 - q * y2) (x3 - q * y3)
            (by omega) hf hfu hy2' ht0 hlin2
            (by linear_combination hlin1 - q * hlin2) hgcd'
            (mul_nonpos_iff.mpr (Or.inr ⟨le_of_lt hneg, ht2⟩))
            (by rw [hkey]; linear_combination hJ)
        · exact ih fN dN y1 y2 y3 (x1 - q * y1) (x2 - q * y2) (x3 - q * y3)
            (by omega) hf hfu hy2' ht0 hlin2
            (by linear_combination hlin1 - q * hlin2) hgcd'
            (by rw [hzero]; simp)
            (by
              rw [hzero]
              simp only [Int.natAbs_zero, Nat.cast_zero, zero_mul, mul_zero,
                sub_zero, zero_add]
              rw [hzero] at hJ
              simpa using hJ)
        · have hx2 : x2 ≤ 0 := by
            by_contra h'
            push_neg at h'
            nlinarith [mul_pos h' hpos]
          have hqy : 0 ≤ q * y2 := mul_nonneg hq0 (le_of_lt hpos)
          have ht2 : x2 - q * y2 ≤ 0 := by linarith
          have hkey : ((x2 - q * y2).natAbs : Int) =
              (x2.natAbs : Int) + q * (y2.natAbs : Int) := by
            rw [Int.ofNat_natAbs_of_nonpos ht2, Int.ofNat_natAbs_of_nonpos hx2,
              Int.natAbs_of_nonneg (le_of_lt hpos)]
            ring
          exact ih fN dN y1 y2 y3 (x1 - q * y1) (x2 - q * y2) (x3 - q * y3)
            (by omega) hf hfu hy2' ht0 hlin2
            (by linear_combination hlin1 - q * hlin2) hgcd'
            (mul_nonpos_iff.mpr (Or.inl ⟨le_of_lt hpos, ht2⟩))
            (by rw [hkey]; linear_combination hJ)

/-- Correctness of `check_gcd` on the range where the C `int` conversions
are value-preserving: for `d, f < 2 ^ 31` with `f > 1`, it returns the
multiplicative inverse of `d` modulo `f` (in `[0, f)`) when
`gcd (d, f) = 1`, and the sentinel `0` otherwise. -/
lemma check_gcd_spec (d f : Nat) (hd : d < 2 ^ 31) (hfu : f < 2 ^ 31)
    (hf : 1 < f) :
    (Nat.gcd d f = 1 →
      check_gcd d f * d % f = 1 ∧ check_gcd d f < f) ∧
    (Nat.gcd d f ≠ 1 → check_gcd d f = 0) := by
  have h := gcdLoop_spec (2 ^ 31 + 1) f d 1 0 ((f : Nat) : Int) 0 1 ((d : Nat) : Int)
    (by simp only [Int.natAbs_ofNat]; omega) hf hfu (by exact_mod_cast hf)
    (by positivity)
    (by ring) (by ring)
    (by simp) (by simp)
    (by simp)
  rw [check_gcd, toInt32_of_lt hd, toInt32_of_lt hfu]
  rwa [Nat.gcd_comm f d] at h

lemma findInvAux_none (d f : Nat) :
    ∀ (fuel i : Nat), (∀ j, i ≤ j → j < i + fuel → j * d % U32 % f ≠ 1) →
      findInvAux d f i fuel = 0 := by
  intro fuel
  induction fuel with
  | zero => intro i _; rfl
  | succ fuel ih =>
    intro i hnone
    rw [findInvAux]
    rw [if_neg (hnone i (le_refl i) (by omega))]
    exact ih (i + 1) (fun j h1 h2 => hnone j (by omega) (by omega))

lemma findInvAux_found (d f : Nat) :
    ∀ (fuel i r : Nat), i ≤ r → r < i + fuel →
      (∀ j, i ≤ j → j < r → j * d % U32 % f ≠ 1) →
      r * d % U32 % f = 1 →
      findInvAux d f i fuel = r := by
  intro fuel
  induction fuel with
  | zero => intro i r h1 h2; omega
  | succ fuel ih =>
    intro i r h1 h2 hnone hr
    rw [findInvAux]
    by_cases hi : i = r
    · subst hi
      rw [if_pos hr]
    · rw [if_neg (hnone i (le_refl i) (by omega))]
      exact ih (i + 1) r (by omega) (by omega)
        (fun j hj1 hj2 => hnone j (by omega) hj2) hr

lemma hasInvMod_gcd_one {e f : Nat} : HasInvMod e f → Nat.gcd e f = 1 := by
  rintro ⟨x, hx, hxe⟩
  rcases Nat.eq_zero_or_pos f with hf0 | hfpos
  · omega
  rcases eq_or_lt_of_le hfpos with hf1 | hf2
  · rw [← hf1]
    exact Nat.gcd_one_right e
  have hdvd : (f : Int) ∣ (1 : Int) - (x : Int) * e := by
    have : (x * e) ≡ 1 [MOD f] := by
      unfold Nat.ModEq
      omega
    have h := this.dvd
    push_cast at h
    simpa using h
  have hg1 : ((Nat.gcd e f : Nat) : Int) ∣ (1 : Int) - (x : Int) * e :=
    dvd_trans (Int.natCast_dvd_natCast.mpr (Nat.gcd_dvd_right e f)) hdvd
  have hg2 : ((Nat.gcd e f : Nat) : Int) ∣ (x : Int) * e :=
    Dvd.dvd.mul_left (Int.natCast_dvd_natCast.mpr (Nat.gcd_dvd_left e f)) _
  have hg3 : ((Nat.gcd e f : Nat) : Int) ∣ (1 : Int) := by
    have := dvd_add hg1 hg2
    simpa using this
  have : Nat.gcd e f ∣ 1 := by exact_mod_cast hg3
  exact Nat.dvd_one.mp this

lemma gcd_one_hasInvMod {e f : Nat} (hd : e < 2 ^ 31) (hfu : f < 2 ^ 31)
    (hf : 1 < f) (hg : Nat.gcd e f = 1) : HasInvMod e f := by
  obtain ⟨h1, h2⟩ := (check_gcd_spec e f hd hfu hf).1 hg
  exact ⟨check_gcd e f, h2, by rw [h1, Nat.mod_eq_of_lt hf]⟩

lemma check_gcd_ne_zero_iff {e f : Nat} (hd : e < 2 ^ 31) (hfu : f < 2 ^ 31)
    (hf : 1 < f) : check_gcd e f ≠ 0 ↔ Nat.gcd e f = 1 := by
  constructor
  · intro hne
    by_contra hg
    exact hne ((check_gcd_spec e f hd hfu hf).2 hg)
  · intro hg
    obtain ⟨h1, _⟩ := (check_gcd_spec e f hd hfu hf).1 hg
    intro h0
    rw [h0] at h1
    simp at h1

lemma genLoop_found (f : Nat) (hfu : f < 2 ^ 31) (hf1 : 1 < f) :
    ∀ (fuel e : Nat), e + fuel = f → 2 ≤ e →
      (∃ j, e ≤ j ∧ j < f ∧ Nat.gcd j f = 1) →
      ∃ j, genLoop f e fuel = (j, check_gcd j f) ∧ e ≤ j ∧ j < f ∧
        Nat.gcd j f = 1 ∧ (∀ i, e ≤ i → i < j → Nat.gcd i f ≠ 1) := by
  intro fuel
  induction fuel with
  | zero =>
    rintro e he _ ⟨j, hj1, hj2, _⟩
    omega
  | succ fuel ih =>
    rintro e he he2 ⟨j, hj1, hj2, hj3⟩
    have hef : e < f := by omega
    rw [genLoop]
    by_cases hc : Nat.gcd e f = 1
    · rw [if_pos ((check_gcd_ne_zero_iff (by omega) hfu hf1).mpr hc)]
      exact ⟨e, rfl, le_refl e, hef, hc, fun i h1 h2 => absurd h1 (by omega)⟩
    · have hz : check_gcd e f = 0 := (check_gcd_spec e f (by omega) hfu hf1).2 hc
      rw [if_neg (by simpa using hz)]
      have hjnext : ∃ j, e + 1 ≤ j ∧ j < f ∧ Nat.gcd j f = 1 := by
        refine ⟨j, ?_, hj2, hj3⟩
        rcases eq_or_lt_of_le hj1 with h | h
        · exact absurd (h ▸ hj3) hc
        · omega
      obtain ⟨k, hk0, hk1, hk2, hk3, hk4⟩ := ih (e + 1) (by omega) (by omega) hjnext
      refine ⟨k, hk0, by omega, hk2, hk3, fun i h1 h2 => ?_⟩
      rcases eq_or_lt_of_le h1 with h | h
      · exact h ▸ hc
      · exact hk4 i (by omega) h2

lemma genLoop_exhaust (f : Nat) (hfu : f < 2 ^ 31) (hf1 : 1 < f) :
    ∀ (fuel e : Nat), e + fuel = f → 2 ≤ e →
      (∀ j, e ≤ j → j < f → Nat.gcd j f ≠ 1) →
      genLoop f e fuel = (f, 0) := by
  intro fuel
  induction fuel with
  | zero =>
    intro e he _ _
    rw [genLoop, ← he]
    simp
  | succ fuel ih =>
    intro e he he2 hnone
    have hz : check_gcd e f = 0 :=
      (check_gcd_spec e f (by omega) hfu hf1).2 (hnone e (le_refl e) (by omega))
    rw [genLoop, if_neg (by simpa using hz)]
    exact ih (e + 1) (by omega) (by omega) (fun j h1 h2 => hnone j (by omega) h2)

lemma bitsizeAux_ge_two (x : Nat) (h2 : 2 ≤ x) :
    ∀ i, 2 ≤ bitsizeAux x (i + 1) := by
  intro i
  induction i with
  | zero =>
    rw [bitsizeAux]
    rw [if_pos (by rw [shiftRight_ne_zero_iff]; omega)]
  | succ i ih =>
    rw [bitsizeAux]
    by_cases h : x >>> (i + 1 + 1) ≠ 0
    · rw [if_pos h]
      omega
    · rw [if_neg h]
      exact ih

lemma bitsize_ge_two (x : Nat) (h2 : 2 ≤ x) : 2 ≤ bitsize x :=
  bitsizeAux_ge_two x h2 30

lemma bitsize_of_ge (x : Nat) (h : 2 ^ 31 ≤ x) : bitsize x = 32 := by
  show bitsizeAux x (30 + 1) = 32
  rw [bitsizeAux]
  rw [if_pos (by rw [shiftRight_ne_zero_iff]; exact h)]

lemma lt_U32_of_bitsize {p q : Nat} (_hp : 2 ≤ p) (hq : 2 ≤ q)
    (hov : bitsize p + bitsize q ≤ 32) : p < U32 := by
  by_contra h
  push_neg at h
  have h31 : 2 ^ 31 ≤ p := le_trans (by norm_num [U32]) h
  have := bitsize_of_ge p h31
  have := bitsize_ge_two q hq
  omega

lemma mul_lt_U32_of_bitsize {p q : Nat} (hp : 2 ≤ p) (hq : 2 ≤ q)
    (hov : bitsize p + bitsize q ≤ 32) : p * q < U32 := by
  have hpU : p < U32 := lt_U32_of_bitsize hp hq hov
  have hqU : q < U32 := lt_U32_of_bitsize hq hp (by omega)
  rw [bitsize_eq_size p hp hpU, bitsize_eq_size q hq hqU] at hov
  calc p * q < 2 ^ Nat.size p * 2 ^ Nat.size q :=
        mul_lt_mul'' (Nat.lt_size_self p) (Nat.lt_size_self q)
          (Nat.zero_le p) (Nat.zero_le q)
    _ = 2 ^ (Nat.size p + Nat.size q) := (pow_add 2 _ _).symm
    _ ≤ 2 ^ 32 := Nat.pow_le_pow_right (by omega) hov
    _ = U32 := rfl

/-- Behaviour of `generate_keys` for actual primes inside the range where
the extended-Euclid inverse computation is sound (`(p-1)(q-1) < 2 ^ 31`):
when `f = (p-1)(q-1) = 2` it fails with the no-valid-exponent error, and
otherwise it emits `(e, n, d)` with `n = p * q`, `e` the smallest
integer `≥ 2` invertible mod `f`, and `d` the inverse of `e` mod `f` in
`[0, f)`. -/
theorem generate_keys_spec (p q : Nat) (hp : p.Prime) (hq : q.Prime)
    (hov : bitsize p + bitsize q ≤ 32) (hfr : (p - 1) * (q - 1) < 2 ^ 31) :
    ((p - 1) * (q - 1) = 2 →
      generate_keys p q = Except.error GenError.noValidExponent) ∧
    ((p - 1) * (q - 1) ≠ 2 →
      ∃ e d, generate_keys p q = Except.ok (e, p * q, d) ∧
        2 ≤ e ∧ HasInvMod e ((p - 1) * (q - 1)) ∧
        (∀ j, 2 ≤ j → HasInvMod j ((p - 1) * (q - 1)) → e ≤ j) ∧
        d * e % ((p - 1) * (q - 1)) = 1 % ((p - 1) * (q - 1)) ∧
        d < (p - 1) * (q - 1)) := by
  have hp2 := hp.two_le
  have hq2 := hq.two_le
  have hpU : p < U32 := lt_U32_of_bitsize hp2 hq2 hov
  have hqU : q < U32 := lt_U32_of_bitsize hq2 hp2 (by omega)
  have hpq : p * q < U32 := mul_lt_U32_of_bitsize hp2 hq2 hov
  have hnval : p * q % U32 = p * q := Nat.mod_eq_of_lt hpq
  have hfle : (p - 1) * (q - 1) ≤ p * q :=
    Nat.mul_le_mul (Nat.sub_le p 1) (Nat.sub_le q 1)
  have hfval : (p + (U32 - 1)) % U32 * ((q + (U32 - 1)) % U32) % U32 =
      (p - 1) * (q - 1) := by
    have h1 : (p + (U32 - 1)) % U32 = p - 1 := by
      simp only [U32] at *
      omega
    have h2 : (q + (U32 - 1)) % U32 = q - 1 := by
      simp only [U32] at *
      omega
    rw [h1, h2]
    exact Nat.mod_eq_of_lt (lt_of_le_of_lt hfle hpq)
  have hcond : ¬ bitsize p + bitsize q > 32 := by omega
  have hf1 : 1 ≤ (p - 1) * (q - 1) := Nat.mul_pos (by omega) (by omega)
  simp only [generate_keys, hfval, hnval, if_neg hcond]
  rcases eq_or_lt_of_le hf1 with hfeq1 | hfgt1
  · -- f = 1 : the loop never runs and the pair (2, 0) is emitted
    rw [← hfeq1]
    refine ⟨fun h => absurd h (by omega),
      fun _ => ⟨2, 0, rfl, le_refl 2, ⟨0, Nat.one_pos, by simp⟩,
        fun j hj _ => hj, by simp, Nat.one_pos⟩⟩
  rcases eq_or_lt_of_le hfgt1 with hfeq2 | hfgt2
  · -- f = 2 : the loop range [2, 2) is empty and e = f, so the search fails
    rw [← hfeq2]
    exact ⟨fun _ => rfl, fun h => absurd rfl h⟩
  · -- f ≥ 3 : the loop finds the smallest invertible e, with a valid inverse
    have hcop : Nat.gcd ((p - 1) * (q - 1) - 1) ((p - 1) * (q - 1)) = 1 := by
      have h : Nat.Coprime ((p - 1) * (q - 1) - 1) (1 + ((p - 1) * (q - 1) - 1)) :=
        Nat.coprime_add_self_right.mpr (Nat.coprime_one_right _)
      rwa [show 1 + ((p - 1) * (q - 1) - 1) = (p - 1) * (q - 1) from by omega] at h
    obtain ⟨j, hrun, hj1, hj2, hj3, hj4⟩ :=
      genLoop_found ((p - 1) * (q - 1)) hfr (by omega) ((p - 1) * (q - 1) - 2) 2
        (by omega) (le_refl 2)
        ⟨(p - 1) * (q - 1) - 1, by omega, by omega, hcop⟩
    rw [hrun]
    obtain ⟨hinv, hlt⟩ := (check_gcd_spec j ((p - 1) * (q - 1)) (by omega) hfr
      (by omega)).1 hj3
    have hne : ¬ (j = (p - 1) * (q - 1)) := by omega
    rw [if_neg hne]
    refine ⟨fun h => absurd h (by omega), fun _ => ?_⟩
    refine ⟨j, check_gcd j ((p - 1) * (q - 1)), rfl, hj1, ?_, ?_, ?_, hlt⟩
    · exact ⟨check_gcd j ((p - 1) * (q - 1)), hlt, by
        rw [hinv, Nat.mod_eq_of_lt (by omega)]⟩
    · intro i hi hiinv
      by_contra hcon
      push_neg at hcon
      exact hj4 i hi hcon (hasInvMod_gcd_one hiinv)
    · rw [hinv, Nat.mod_eq_of_lt (by omega)]

/-- The overflow check of `generate_keys`, for `p, q ≥ 2`, is equivalent
to the true bit-length criterion `size p + size q > 32`. -/
theorem generate_keys_overflow_iff (p q : Nat) (hp : 2 ≤ p) (hq : 2 ≤ q)
    (hpU : p < U32) (hqU : q < U32) :
    generate_keys p q = Except.error GenError.overflow ↔
      32 < Nat.size p + Nat.size q := by
  by_cases h : bitsize p + bitsize q > 32
  · simp only [generate_keys, if_pos h]
    rw [bitsize_eq_size p hp hpU, bitsize_eq_size q hq hqU] at h
    exact iff_of_true trivial h
  · simp only [generate_keys, if_neg h]
    rw [bitsize_eq_size p hp hpU, bitsize_eq_size q hq hqU] at h
    refine iff_of_false ?_ (by omega)
    split
    · intro hcon
      exact GenError.noConfusion (Except.error.inj hcon)
    · intro hcon
      exact Except.noConfusion hcon

/-- Claim C2: for all 32-bit `a`, `b` and every 32-bit modulus `n > 0`,
`ab_mod_n a b n` equals `a ^ b mod n` computed in exact integer
arithmetic; in particular the result is strictly less than `n`, so the
final narrowing of the 64-bit accumulator to 32 bits is lossless. -/
theorem C2_ab_mod_n_correct (a b n : Nat) (_ha : a < U32) (hb : b < U32)
    (hn : 0 < n) (hnu : n < U32) :
    ab_mod_n a b n = a ^ b % n ∧ ab_mod_n a b n < n := by
  have h := ab_mod_n_spec a b n hb hn hnu
  exact ⟨h, h ▸ Nat.mod_lt _ hn⟩

theorem C2_witness :
    ab_mod_n 18 3 33 = 18 ^ 3 % 33 ∧ ab_mod_n 18 3 33 < 33 :=
  C2_ab_mod_n_correct 18 3 33 (by norm_num [U32]) (by norm_num [U32])
    (by norm_num) (by norm_num [U32])

/-- Claim C3 (amended): for `d, f` below `2 ^ 31` (the range on which the
C `unsigned`-to-`int` conversions inside `check_gcd` preserve values) with
`f > 1`: when `gcd (d, f) = 1` the function returns an `x` with
`x * d mod f = 1` and `0 ≤ x < f`; otherwise it returns the sentinel 0. -/
theorem C3_check_gcd_correct (d f : Nat) (hd : d < 2 ^ 31) (hfu : f < 2 ^ 31)
    (hf : 1 < f) :
    (Nat.gcd d f = 1 →
      check_gcd d f * d % f = 1 ∧ check_gcd d f < f) ∧
    (Nat.gcd d f ≠ 1 → check_gcd d f = 0) :=
  check_gcd_spec d f hd hfu hf

/-- Counterexample to claim C3 as stated over all 32-bit inputs: for
`d = 2`, `f = 2 ^ 31 + 1` (which is coprime to 2) the conversion of `f`
to `int` wraps to a negative value and `check_gcd` returns the sentinel
`0` instead of an inverse. -/
theorem C3_counterexample :
    Nat.gcd 2 (2 ^ 31 + 1) = 1 ∧
      check_gcd 2 (2 ^ 31 + 1) * 2 % (2 ^ 31 + 1) ≠ 1 := by
  constructor
  · decide
  · decide

theorem C3_witness :
    Nat.gcd 3 20 = 1 ∧ check_gcd 3 20 * 3 % 20 = 1 ∧ check_gcd 3 20 < 20 :=
  ⟨by decide, (C3_check_gcd_correct 3 20 (by norm_num) (by norm_num)
    (by norm_num)).1 (by decide)⟩

/-- Claim C10 (amended): on inputs in the positive signed 32-bit range and
such that the products `i * d` scanned by `find_inverse` do not overflow
32 bits (`d * (f - 1) < 2 ^ 32`), the extended-Euclid `check_gcd` and the
naive linear scan `find_inverse` agree. -/
theorem C10_check_gcd_refines_find_inverse (d f : Nat) (_hd0 : 0 < d)
    (hd : d < 2 ^ 31) (hf : 1 < f) (hfu : f < 2 ^ 31)
    (hnw : d * (f - 1) < U32) : check_gcd d f = find_inverse d f := by
  by_cases hg : Nat.gcd d f = 1
  · obtain ⟨hinv, hlt⟩ := (check_gcd_spec d f hd hfu hf).1 hg
    have hr1 : 1 ≤ check_gcd d f := by
      rcases Nat.eq_zero_or_pos (check_gcd d f) with h0 | h1
      · rw [h0] at hinv
        simp at hinv
      · exact h1
    rw [find_inverse]
    have hrd : check_gcd d f * d % U32 = check_gcd d f * d := by
      apply Nat.mod_eq_of_lt
      calc check_gcd d f * d ≤ (f - 1) * d :=
            Nat.mul_le_mul_right d (by omega)
        _ = d * (f - 1) := by ring
        _ < U32 := hnw
    refine (findInvAux_found d f (f - 1) 1 (check_gcd d f) hr1 (by omega)
      ?_ ?_).symm
    · intro j hj1 hjr hcon
      have hjd : j * d % U32 = j * d := by
        apply Nat.mod_eq_of_lt
        calc j * d ≤ (f - 1) * d := Nat.mul_le_mul_right d (by omega)
          _ = d * (f - 1) := by ring
          _ < U32 := hnw
      rw [hjd] at hcon
      have h1 : j * d ≡ 1 [MOD f] := by
        unfold Nat.ModEq
        rw [hcon]
        exact (Nat.mod_eq_of_lt hf).symm
      have h2 : check_gcd d f * d ≡ 1 [MOD f] := by
        unfold Nat.ModEq
        rw [hinv]
        exact (Nat.mod_eq_of_lt hf).symm
      have ha : j * (check_gcd d f * d) ≡ j * 1 [MOD f] := h2.mul_left j
      rw [mul_one] at ha
      have hb : check_gcd d f * (j * d) ≡ check_gcd d f * 1 [MOD f] :=
        h1.mul_left (check_gcd d f)
      rw [mul_one] at hb
      have hc : j * (check_gcd d f * d) = check_gcd d f * (j * d) := by ring
      have h3 : j ≡ check_gcd d f [MOD f] := ha.symm.trans (hc.symm ▸ hb)
      have hjeq : j = check_gcd d f := by
        have h4 := h3
        rw [Nat.ModEq, Nat.mod_eq_of_lt (by omega), Nat.mod_eq_of_lt hlt] at h4
        exact h4
      omega
    · rw [hrd, hinv]
  · have h0 : check_gcd d f = 0 := (check_gcd_spec d f hd hfu hf).2 hg
    rw [h0, find_inverse]
    refine (findInvAux_none d f (f - 1) 1 ?_).symm
    intro j hj1 hj2 hcon
    have hjd : j * d % U32 = j * d := by
      apply Nat.mod_eq_of_lt
      calc j * d ≤ (f - 1) * d := Nat.mul_le_mul_right d (by omega)
        _ = d * (f - 1) := by ring
        _ < U32 := hnw
    rw [hjd] at hcon
    exact hg (hasInvMod_gcd_one ⟨j, by omega, by
      rw [hcon, Nat.mod_eq_of_lt hf]⟩)

/-- Counterexample to claim C10 as stated: at `d = 2 ^ 30`, `f = 5` (both
inside the positive signed range) the product `4 * 2 ^ 30` wraps to 0 in
the 32-bit `unsigned` multiplication of `find_inverse`, which therefore
misses the inverse and returns 0, while `check_gcd` correctly returns 4. -/
theorem C10_counterexample :
    1073741824 < 2 ^ 31 ∧ (5 : Nat) < 2 ^ 31 ∧
      check_gcd 1073741824 5 = 4 ∧ find_inverse 1073741824 5 = 0 := by
  refine ⟨by norm_num, by norm_num, by decide, by decide⟩

theorem C10_witness : check_gcd 3 20 = find_inverse 3 20 :=
  C10_check_gcd_refines_find_inverse 3 20 (by norm_num) (by norm_num)
    (by norm_num) (by norm_num) (by norm_num [U32])

/-- Claim C6, evaluation at the failing input: the C `bitsize` scan stops
at bit index 1 and therefore returns 0 for the input 1, whose true
minimal representation width (`Nat.size 1`) is 1 bit. -/
theorem C6_bitsize_one_eval : bitsize 1 = 0 ∧ Nat.size 1 = 1 := by
  constructor
  · decide
  · simp

/-- Claim C9, evaluation at the failing input: starting the prime search
at 1 reports 1 itself as prime (the trial-division test accepts 0 and 1),
but 1 is not a prime number. -/
theorem C9_find_next_prime_one_eval :
    find_next_prime 1 = some 1 ∧ ¬ Nat.Prime 1 :=
  ⟨rfl, Nat.not_prime_one⟩

/-- Claim C5 (amended): for `p, q ≥ 2` (in particular for all primes),
`generate_keys` fails with the overflow error exactly when the true
minimal bit-lengths of `p` and `q` sum to more than 32. -/
theorem C5_overflow_iff (p q : Nat) (hp : 2 ≤ p) (hq : 2 ≤ q)
    (hpU : p < U32) (hqU : q < U32) :
    generate_keys p q = Except.error GenError.overflow ↔
      32 < Nat.size p + Nat.size q :=
  generate_keys_overflow_iff p q hp hq hpU hqU

/-- Counterexample to claim C5 as stated for all positive `p`, `q`: at
`p = 1`, `q = 2 ^ 31` the true bit-lengths sum to `1 + 32 = 33 > 32`,
but `bitsize 1 = 0` in the C code, so the check passes and no overflow
error is raised. -/
theorem C5_counterexample :
    32 < Nat.size 1 + Nat.size (2 ^ 31) ∧
      generate_keys 1 (2 ^ 31) ≠ Except.error GenError.overflow := by
  constructor
  · rw [Nat.size_one, Nat.size_pow]
    omega
  · rw [show generate_keys 1 (2 ^ 31) = Except.ok (2, 2147483648, 0) from by decide]
    intro h
    exact Except.noConfusion h

theorem C5_witness : generate_keys 65536 65536 = Except.error GenError.overflow := by
  refine (C5_overflow_iff 65536 65536 (by norm_num) (by norm_num)
    (by norm_num [U32]) (by norm_num [U32])).mpr ?_
  rw [show (65536 : Nat) = 2 ^ 16 from by norm_num, Nat.size_pow]
  omega

/-- Claim C4 (amended): for primes `p`, `q` passing the overflow check and
with totient `f = (p-1)(q-1) < 2 ^ 31` (inside the range on which
`check_gcd` is sound): if `f = 2` the generation fails with the
no-valid-exponent error (the search range `[2, f)` is empty); otherwise it
emits `(e, p*q, d)` where `e` is the smallest integer `≥ 2` invertible
modulo `f` and `d` is its inverse in `[0, f)`. -/
theorem C4_generate_keys_correct (p q : Nat) (hp : p.Prime) (hq : q.Prime)
    (hov : bitsize p + bitsize q ≤ 32) (hfr : (p - 1) * (q - 1) < 2 ^ 31) :
    ((p - 1) * (q - 1) = 2 →
      generate_keys p q = Except.error GenError.noValidExponent) ∧
    ((p - 1) * (q - 1) ≠ 2 →
      ∃ e d, generate_keys p q = Except.ok (e, p * q, d) ∧
        2 ≤ e ∧ HasInvMod e ((p - 1) * (q - 1)) ∧
        (∀ j, 2 ≤ j → HasInvMod j ((p - 1) * (q - 1)) → e ≤ j) ∧
        d * e % ((p - 1) * (q - 1)) = 1 % ((p - 1) * (q - 1)) ∧
        d < (p - 1) * (q - 1)) :=
  generate_keys_spec p q hp hq hov hfr

set_option maxRecDepth 4000 in
/-- Counterexample to claim C4 as stated: `p = q = 65521` is prime and
passes the overflow check, but the totient `f = 65520 ^ 2 = 4292870400`
exceeds `2 ^ 31` and wraps to a negative `int` inside `check_gcd`, which
then returns nonzero garbage at `e = 9` even though `gcd (9, f) = 9`:
the emitted exponent `9` has no inverse modulo `f` at all, and the
emitted `d = 465977` is not an inverse of it. -/
theorem C4_counterexample :
    Nat.Prime 65521 ∧ bitsize 65521 + bitsize 65521 ≤ 32 ∧
      generate_keys 65521 65521 = Except.ok (9, 4293001441, 465977) ∧
      Nat.gcd 9 4292870400 ≠ 1 ∧ 465977 * 9 % 4292870400 ≠ 1 := by
  refine ⟨by norm_num, by decide, by decide, by decide, by decide⟩

theorem C4_witness : generate_keys 2 3 = Except.error GenError.noValidExponent :=
  (C4_generate_keys_correct 2 3 (by norm_num) (by norm_num) (by decide)
    (by norm_num)).1 (by norm_num)

lemma lor_eq_add_of_land_eq_zero : ∀ a b : Nat, a &&& b = 0 → a ||| b = a + b := by
  intro a
  induction a using Nat.strong_induction_on with
  | _ a ih =>
    intro b hab
    rcases Nat.eq_zero_or_pos a with ha0 | hapos
    · subst ha0
      simp
    · have hd : a / 2 &&& b / 2 = 0 := by
        rw [← Nat.and_div_two, hab]
      have hdiv : a / 2 ||| b / 2 = a / 2 + b / 2 :=
        ih (a / 2) (Nat.div_lt_self hapos one_lt_two) (b / 2) hd
      have h1 := Nat.div_add_mod (a ||| b) 2
      rw [Nat.or_div_two, hdiv] at h1
      have hAnd : ¬ (a % 2 = 1 ∧ b % 2 = 1) := by
        intro hcon
        have := Nat.and_mod_two_eq_one.mpr hcon
        rw [hab] at this
        simp at this
      have hOr := Nat.or_mod_two_eq_one (a := a) (b := b)
      have h2 := Nat.div_add_mod a 2
      have h3 := Nat.div_add_mod b 2
      have hma := Nat.mod_two_eq_zero_or_one a
      have hmb := Nat.mod_two_eq_zero_or_one b
      have hmo := Nat.mod_two_eq_zero_or_one (a ||| b)
      omega

lemma and_shiftLeft_eq_zero {a b c : Nat} (h : a < 2 ^ c) : a &&& (b <<< c) = 0 := by
  apply Nat.eq_of_testBit_eq
  intro i
  simp only [Nat.testBit_and, Nat.testBit_shiftLeft, Nat.zero_testBit]
  by_cases hic : c ≤ i
  · have hlt : a < 2 ^ i := lt_of_lt_of_le h (Nat.pow_le_pow_right (by omega) hic)
    simp [Nat.testBit_lt_two_pow hlt]
  · simp [hic]

lemma testBit_le_one_high {b j : Nat} (hb : b ≤ 1) (hj : 1 ≤ j) :
    b.testBit j = false := by
  apply Nat.testBit_lt_two_pow
  calc b ≤ 1 := hb
    _ < 2 ^ j := Nat.one_lt_two_pow_iff.mpr (by omega)

lemma streamVal_lt (B : Nat → Nat) : ∀ n p, streamVal B p n < 2 ^ n := by
  intro n
  induction n with
  | zero =>
    intro p
    rw [streamVal]
    exact Nat.one_pos
  | succ n ih =>
    intro p
    rw [streamVal]
    have h1 := ih (p + 1)
    have h2 : (bitOf B p).toNat ≤ 1 := Bool.toNat_le (bitOf B p)
    have : (2 : Nat) ^ (n + 1) = 2 * 2 ^ n := by ring
    omega

lemma streamVal_congr {B C : Nat → Nat} :
    ∀ n p, (∀ r, p ≤ r → r < p + n → bitOf B r = bitOf C r) →
      streamVal B p n = streamVal C p n := by
  intro n
  induction n with
  | zero => intro p _; rfl
  | succ n ih =>
    intro p hagree
    rw [streamVal, streamVal]
    rw [hagree p (le_refl p) (by omega),
      ih (p + 1) (fun r h1 h2 => hagree r (by omega) (by omega))]

/-- Reading back bits that hold the binary digits of `v` recovers
`v mod 2 ^ n`. -/
lemma streamVal_of_testBit {B : Nat → Nat} :
    ∀ n v p, (∀ k, k < n → bitOf B (p + k) = v.testBit k) →
      streamVal B p n = v % 2 ^ n := by
  intro n
  induction n with
  | zero => intro v p _; simp [streamVal, Nat.mod_one]
  | succ n ih =>
    intro v p hbits
    rw [streamVal]
    have h0 : bitOf B p = v.testBit 0 := by
      have := hbits 0 (by omega)
      simpa using this
    have hrest : streamVal B (p + 1) n = (v / 2) % 2 ^ n := by
      apply ih (v / 2) (p + 1)
      intro k hk
      have := hbits (k + 1) (by omega)
      rw [show p + (k + 1) = p + 1 + k from by omega] at this
      rw [this, Nat.testBit_add_one]
    rw [h0, hrest]
    have hsplit : v % 2 ^ (n + 1) = v % 2 + 2 * (v / 2 % 2 ^ n) := by
      have : (2 : Nat) ^ (n + 1) = 2 * 2 ^ n := by ring
      rw [this]
      exact Nat.mod_mul
    rw [hsplit, Nat.testBit_zero]
    rcases Nat.mod_two_eq_zero_or_one v with h | h
    · rw [h]
      simp
    · rw [h]
      simp

lemma testBit_streamVal {B : Nat → Nat} :
    ∀ n p r, (streamVal B p n).testBit r =
      if r < n then bitOf B (p + r) else false := by
  intro n
  induction n with
  | zero =>
    intro p r
    simp [streamVal]
  | succ n ih =>
    intro p r
    rw [streamVal]
    have hb : (bitOf B p).toNat ≤ 1 := Bool.toNat_le (bitOf B p)
    rcases r with _ | r
    · rw [Nat.testBit_zero]
      have : ((bitOf B p).toNat + 2 * streamVal B (p + 1) n) % 2 =
          (bitOf B p).toNat := by omega
      rw [this, if_pos (Nat.succ_pos n), Nat.add_zero]
      rcases Bool.eq_false_or_eq_true (bitOf B p) with h | h <;> simp [h]
    · rw [Nat.testBit_add_one]
      have : ((bitOf B p).toNat + 2 * streamVal B (p + 1) n) / 2 =
          streamVal B (p + 1) n := by omega
      rw [this, ih (p + 1) r]
      have : p + 1 + r = p + (r + 1) := by omega
      rw [this]
      by_cases hr : r < n
      · rw [if_pos hr, if_pos (by omega)]
      · rw [if_neg hr, if_neg (by omega)]

lemma bitOf_eq_testBit (B : Nat → Nat) (pos m : Nat) (hm : m < 8) :
    bitOf B (8 * pos + m) = (B pos).testBit m := by
  rw [bitOf]
  have h1 : (8 * pos + m) / 8 = pos := by omega
  have h2 : (8 * pos + m) % 8 = m := by omega
  rw [h1, h2]

/-- Full characterization of the `readbits` loop: it accumulates the
`n`-bit stream value at the cursor into `result` (shifted up by
`counter`) and advances the cursor by `n` bits. -/
lemma readbitsAux_spec (B : Nat → Nat) :
    ∀ (n pos bitpos result counter : Nat), bitpos < 8 → result < 2 ^ counter →
      readbitsAux B pos bitpos n result counter =
        (result + streamVal B (8 * pos + bitpos) n * 2 ^ counter,
         (8 * pos + bitpos + n) / 8, (8 * pos + bitpos + n) % 8) := by
  intro n
  induction n with
  | zero =>
    intro pos bitpos result counter hb _
    rw [readbitsAux, streamVal]
    have h1 : (8 * pos + bitpos + 0) / 8 = pos := by omega
    have h2 : (8 * pos + bitpos + 0) % 8 = bitpos := by omega
    rw [h1, h2]
    simp
  | succ n ih =>
    intro pos bitpos result counter hb hr
    have hbit : (B pos >>> bitpos) &&& 1 = (bitOf B (8 * pos + bitpos)).toNat := by
      rw [Nat.shiftRight_eq_div_pow, Nat.and_one_is_mod,
        bitOf_eq_testBit B pos bitpos hb, Nat.toNat_testBit]
    have hb1 : (B pos >>> bitpos) &&& 1 ≤ 1 := by
      rw [hbit]
      exact Bool.toNat_le _
    have hor : result ||| (((B pos >>> bitpos) &&& 1) <<< counter) =
        result + ((B pos >>> bitpos) &&& 1) * 2 ^ counter := by
      rw [lor_eq_add_of_land_eq_zero _ _ (and_shiftLeft_eq_zero hr), Nat.shiftLeft_eq]
    have hrnext : result + ((B pos >>> bitpos) &&& 1) * 2 ^ counter <
        2 ^ (counter + 1) := by
      have : (2 : Nat) ^ (counter + 1) = 2 ^ counter * 2 := by ring
      nlinarith [hb1, hr]
    rw [readbitsAux]
    rw [hor]
    by_cases h8 : bitpos + 1 ≥ 8
    · have h7 : bitpos = 7 := by omega
      subst h7
      rw [if_pos h8, ih (pos + 1) 0 _ (counter + 1) (by omega) hrnext]
      have hP : 8 * (pos + 1) + 0 = 8 * pos + 7 + 1 := by omega
      rw [hP]
      simp only [Prod.mk.injEq]
      refine ⟨?_, by omega, by omega⟩
      rw [show streamVal B (8 * pos + 7) (n + 1) =
        (bitOf B (8 * pos + 7)).toNat + 2 * streamVal B (8 * pos + 7 + 1) n
        from rfl]
      rw [hbit]
      ring
    · rw [if_neg h8, ih pos (bitpos + 1) _ (counter + 1) (by omega) hrnext]
      have hP : 8 * pos + (bitpos + 1) = 8 * pos + bitpos + 1 := by omega
      rw [hP]
      simp only [Prod.mk.injEq]
      refine ⟨?_, by omega, by omega⟩
      rw [show streamVal B (8 * pos + bitpos) (n + 1) =
        (bitOf B (8 * pos + bitpos)).toNat + 2 * streamVal B (8 * pos + bitpos + 1) n
        from rfl]
      rw [hbit]
      ring

lemma readbits_spec (B : Nat → Nat) (pos bitpos n : Nat) (hb : bitpos < 8) :
    readbits B pos bitpos n =
      (streamVal B (8 * pos + bitpos) n,
       (8 * pos + bitpos + n) / 8, (8 * pos + bitpos + n) % 8) := by
  rw [readbits, readbitsAux_spec B n pos bitpos 0 0 hb (by omega)]
  simp

/-- Full characterization of the `writebits` loop on a buffer whose bits
from the cursor on are all clear: bytes stay in range, the bits strictly
below the cursor are untouched, the `n` written bits hold the binary
digits `counter, counter+1, ...` of `value`, and everything beyond the
advanced cursor stays clear. -/
lemma writebitsAux_spec :
    ∀ (n : Nat) (B : Nat → Nat) (pos bitpos v counter : Nat), bitpos < 8 →
      Bytes256 B → ZeroFrom B (8 * pos + bitpos) →
      ∃ W, writebitsAux B pos bitpos n v counter =
          (W, (8 * pos + bitpos + n) / 8, (8 * pos + bitpos + n) % 8) ∧
        Bytes256 W ∧ ZeroFrom W (8 * pos + bitpos + n) ∧
        (∀ r, r < 8 * pos + bitpos → bitOf W r = bitOf B r) ∧
        (∀ k, k < n → bitOf W (8 * pos + bitpos + k) = v.testBit (counter + k)) := by
  intro n
  induction n with
  | zero =>
    intro B pos bitpos v counter hb hB hZ
    refine ⟨B, ?_, hB, by simpa using hZ, fun r _ => rfl, fun k hk => absurd hk (by omega)⟩
    rw [writebitsAux]
    have h1 : (8 * pos + bitpos + 0) / 8 = pos := by omega
    have h2 : (8 * pos + bitpos + 0) % 8 = bitpos := by omega
    rw [h1, h2]
  | succ n ih =>
    intro B pos bitpos v counter hb hB hZ
    set bit := (v >>> counter) &&& 1 with hbitdef
    have hbit : bit = (v.testBit counter).toNat := by
      rw [hbitdef, Nat.shiftRight_eq_div_pow, Nat.and_one_is_mod, Nat.toNat_testBit]
    have hb1 : bit ≤ 1 := by
      rw [hbit]
      exact Bool.toNat_le _
    set newbyte := B pos ||| (bit <<< bitpos) with hnewdef
    have hnew256 : newbyte < 256 := by
      have h1 : B pos < 2 ^ 8 := hB pos
      have h2 : bit <<< bitpos < 2 ^ 8 := by
        rw [Nat.shiftLeft_eq]
        calc bit * 2 ^ bitpos ≤ 1 * 2 ^ bitpos := Nat.mul_le_mul_right _ hb1
          _ = 2 ^ bitpos := one_mul _
          _ < 2 ^ 8 := Nat.pow_lt_pow_right (by omega) hb
      exact Nat.or_lt_two_pow h1 h2
    have hold : (B pos).testBit bitpos = false := by
      rw [← bitOf_eq_testBit B pos bitpos hb]
      exact hZ _ (le_refl _)
    have hF3 : ∀ m, newbyte.testBit m =
        if m = bitpos then v.testBit counter else (B pos).testBit m := by
      intro m
      rw [hnewdef, Nat.testBit_or, Nat.testBit_shiftLeft]
      by_cases hm : m = bitpos
      · subst hm
        rw [if_pos rfl, hold]
        simp only [ge_iff_le, le_refl, decide_True, Nat.sub_self, Bool.true_and,
          Bool.false_or]
        rw [hbit]
        rcases Bool.eq_false_or_eq_true (v.testBit counter) with h | h <;>
          rw [h] <;> rfl
      · rw [if_neg hm]
        by_cases hge : bitpos ≤ m
        · have : 1 ≤ m - bitpos := by omega
          rw [testBit_le_one_high hb1 this]
          simp
        · simp [hge]
    set B1 := setByte B pos newbyte with hB1def
    have hB1at : ∀ j, B1 j = if j = pos then newbyte else B j := fun j => rfl
    have hB1bytes : Bytes256 B1 := by
      intro j
      rw [hB1at]
      by_cases hj : j = pos
      · rw [if_pos hj]; exact hnew256
      · rw [if_neg hj]; exact hB j
    have hbitOfB1 : ∀ r, bitOf B1 r =
        if r = 8 * pos + bitpos then v.testBit counter else bitOf B r := by
      intro r
      by_cases hj : r / 8 = pos
      · have hr8 : r = 8 * pos + r % 8 := by omega
        have hm8 : r % 8 < 8 := Nat.mod_lt _ (by omega)
        rw [bitOf, bitOf, hj, hB1at, if_pos rfl, hF3]
        by_cases hm : r % 8 = bitpos
        · rw [if_pos hm, if_pos (by omega)]
        · rw [if_neg hm, if_neg (by omega)]
      · have hne : ¬ r = 8 * pos + bitpos := by omega
        rw [if_neg hne, bitOf, bitOf, hB1at, if_neg hj]
    have hZ1 : ZeroFrom B1 (8 * pos + bitpos + 1) := by
      intro r hr
      rw [hbitOfB1, if_neg (by omega)]
      exact hZ r (by omega)
    by_cases h8 : bitpos + 1 ≥ 8
    · have h7 : bitpos = 7 := by omega
      subst h7
      obtain ⟨W, hrun, hWb, hWz, hWlow, hWwin⟩ :=
        ih B1 (pos + 1) 0 v (counter + 1) (by omega) hB1bytes
          (by
            intro r hr
            exact hZ1 r (by omega))
      refine ⟨W, ?_, hWb, ?_, ?_, ?_⟩
      · rw [writebitsAux]
        rw [if_pos (by omega)]
        rw [← hnewdef, ← hB1def, hrun]
        simp only [Prod.mk.injEq]
        exact ⟨trivial, by omega, by omega⟩
      · intro r hr
        exact hWz r (by omega)
      · intro r hr
        rw [hWlow r (by omega), hbitOfB1, if_neg (by omega)]
      · intro k hk
        rcases Nat.eq_zero_or_pos k with hk0 | hkpos
        · subst hk0
          simp only [Nat.add_zero]
          rw [hWlow (8 * pos + 7) (by omega), hbitOfB1, if_pos rfl]
        · have hke : 8 * pos + 7 + k = 8 * (pos + 1) + 0 + (k - 1) := by omega
          have hce : counter + k = counter + 1 + (k - 1) := by omega
          rw [hke, hce]
          exact hWwin (k - 1) (by omega)
    · obtain ⟨W, hrun, hWb, hWz, hWlow, hWwin⟩ :=
        ih B1 pos (bitpos + 1) v (counter + 1) (by omega) hB1bytes
          (by
            intro r hr
            exact hZ1 r (by omega))
      refine ⟨W, ?_, hWb, ?_, ?_, ?_⟩
      · rw [writebitsAux]
        rw [if_neg h8]
        rw [← hnewdef, ← hB1def, hrun]
        simp only [Prod.mk.injEq]
        exact ⟨trivial, by omega, by omega⟩
      · intro r hr
        exact hWz r (by omega)
      · intro r hr
        rw [hWlow r (by omega), hbitOfB1, if_neg (by omega)]
      · intro k hk
        rcases Nat.eq_zero_or_pos k with hk0 | hkpos
        · subst hk0
          simp only [Nat.add_zero]
          rw [hWlow (8 * pos + bitpos) (by omega), hbitOfB1, if_pos rfl]
        · have hke : 8 * pos + bitpos + k = 8 * pos + (bitpos + 1) + (k - 1) := by
            omega
          have hce : counter + k = counter + 1 + (k - 1) := by omega
          rw [hke, hce]
          exact hWwin (k - 1) (by omega)

/-- Top-level characterization of `writebits` on a zero-tail buffer. -/
lemma writebits_spec (B : Nat → Nat) (pos bitpos n v : Nat) (hb : bitpos < 8)
    (hB : Bytes256 B) (hZ : ZeroFrom B (8 * pos + bitpos)) :
    ∃ W, writebits B pos bitpos n v =
        (W, (8 * pos + bitpos + n) / 8, (8 * pos + bitpos + n) % 8) ∧
      Bytes256 W ∧ ZeroFrom W (8 * pos + bitpos + n) ∧
      (∀ r, r < 8 * pos + bitpos → bitOf W r = bitOf B r) ∧
      (∀ k, k < n → bitOf W (8 * pos + bitpos + k) = v.testBit k) := by
  obtain ⟨W, hrun, hWb, hWz, hWlow, hWwin⟩ :=
    writebitsAux_spec n B pos bitpos v 0 hb hB hZ
  exact ⟨W, hrun, hWb, hWz, hWlow, fun k hk => by simpa using hWwin k hk⟩

lemma writeSeq_spec :
    ∀ (l : List (Nat × Nat)) (B : Nat → Nat) (pos bitpos : Nat), bitpos < 8 →
      Bytes256 B → ZeroFrom B (8 * pos + bitpos) →
      ∃ W, writeSeq B pos bitpos l =
          (W, (8 * pos + bitpos + totalBits l) / 8,
           (8 * pos + bitpos + totalBits l) % 8) ∧
        Bytes256 W ∧ ZeroFrom W (8 * pos + bitpos + totalBits l) ∧
        (∀ r, r < 8 * pos + bitpos → bitOf W r = bitOf B r) ∧
        ValsAt W (8 * pos + bitpos) l := by
  intro l
  induction l with
  | nil =>
    intro B pos bitpos hb hB hZ
    refine ⟨B, ?_, hB, by simpa [totalBits] using hZ, fun r _ => rfl, trivial⟩
    rw [writeSeq]
    have h1 : (8 * pos + bitpos + totalBits []) / 8 = pos := by
      simp [totalBits]
      omega
    have h2 : (8 * pos + bitpos + totalBits []) % 8 = bitpos := by
      simp [totalBits]
      omega
    rw [h1, h2]
  | cons nv rest ih =>
    intro B pos bitpos hb hB hZ
    obtain ⟨W1, hrun1, hW1b, hW1z, hW1low, hW1win⟩ :=
      writebits_spec B pos bitpos nv.1 nv.2 hb hB hZ
    have hcursor : 8 * ((8 * pos + bitpos + nv.1) / 8) +
        (8 * pos + bitpos + nv.1) % 8 = 8 * pos + bitpos + nv.1 := by omega
    obtain ⟨W, hrun, hWb, hWz, hWlow, hWvals⟩ :=
      ih W1 ((8 * pos + bitpos + nv.1) / 8) ((8 * pos + bitpos + nv.1) % 8)
        (by omega) hW1b (by rw [hcursor]; exact hW1z)
    rw [hcursor] at hrun hWz hWlow hWvals
    have htot : totalBits (nv :: rest) = nv.1 + totalBits rest := by
      simp [totalBits]
    refine ⟨W, ?_, hWb, ?_, ?_, ?_, ?_⟩
    · rw [writeSeq]
      rw [hrun1]
      rw [hrun]
      rw [htot]
      simp only [Prod.mk.injEq]
      exact ⟨trivial, by omega, by omega⟩
    · rw [htot]
      intro r hr
      exact hWz r (by omega)
    · intro r hr
      rw [hWlow r (by omega), hW1low r hr]
    · intro k hk
      rw [hWlow (8 * pos + bitpos + k) (by omega)]
      exact hW1win k hk
    · exact hWvals

lemma readSeq_spec :
    ∀ (l : List (Nat × Nat)) (W : Nat → Nat) (pos bitpos : Nat), bitpos < 8 →
      (∀ nv ∈ l, nv.2 < 2 ^ nv.1) →
      ValsAt W (8 * pos + bitpos) l →
      readSeq W pos bitpos (l.map Prod.fst) =
        (l.map Prod.snd, (8 * pos + bitpos + totalBits l) / 8,
         (8 * pos + bitpos + totalBits l) % 8) := by
  intro l
  induction l with
  | nil =>
    intro W pos bitpos hb _ _
    rw [List.map_nil, List.map_nil, readSeq]
    have h1 : (8 * pos + bitpos + totalBits []) / 8 = pos := by
      simp [totalBits]
      omega
    have h2 : (8 * pos + bitpos + totalBits []) % 8 = bitpos := by
      simp [totalBits]
      omega
    rw [h1, h2]
  | cons nv rest ih =>
    intro W pos bitpos hb hbound hvals
    obtain ⟨hwin, hrest⟩ := hvals
    rw [List.map_cons, List.map_cons, readSeq]
    rw [readbits_spec W pos bitpos nv.1 hb]
    have hval : streamVal W (8 * pos + bitpos) nv.1 = nv.2 := by
      rw [streamVal_of_testBit nv.1 nv.2 _ hwin]
      exact Nat.mod_eq_of_lt (hbound nv (List.mem_cons_self nv rest))
    have hcursor : 8 * ((8 * pos + bitpos + nv.1) / 8) +
        (8 * pos + bitpos + nv.1) % 8 = 8 * pos + bitpos + nv.1 := by omega
    have hrec := ih W ((8 * pos + bitpos + nv.1) / 8)
      ((8 * pos + bitpos + nv.1) % 8) (by omega)
      (fun x hx => hbound x (List.mem_cons_of_mem nv hx))
      (by rw [hcursor]; exact hrest)
    rw [hcursor] at hrec
    rw [hrec, hval]
    have htot : totalBits (nv :: rest) = nv.1 + totalBits rest := by
      simp [totalBits]
    rw [htot]
    simp only [Prod.mk.injEq]
    exact ⟨trivial, by omega, by omega⟩

/-- Claim C7 (amended): writing any sequence of fields (widths in
`[1, 32]`, each value fitting its width) with `writebits` into a zeroed
buffer and reading the same widths back with `readbits` from the start
reproduces the values exactly, with both cursors advancing by the same
total number of bits. -/
theorem C7_bitpack_roundtrip (l : List (Nat × Nat))
    (hw : ∀ nv ∈ l, 1 ≤ nv.1 ∧ nv.1 ≤ 32 ∧ nv.2 < 2 ^ nv.1) :
    readSeq (writeSeq (fun _ => 0) 0 0 l).1 0 0 (l.map Prod.fst) =
      (l.map Prod.snd, (writeSeq (fun _ => 0) 0 0 l).2) := by
  obtain ⟨W, hrun, hWb, hWz, hWlow, hvals⟩ :=
    writeSeq_spec l (fun _ => 0) 0 0 (by omega) (fun j => by norm_num)
      (fun r _ => by simp [bitOf])
  rw [hrun]
  exact readSeq_spec l W 0 0 (by omega) (fun nv h => (hw nv h).2.2) hvals

/-- Counterexample to claim C7 as stated (for arbitrary values): writing
the value 2 into a 1-bit field stores only its low bit, so reading the
field back yields 0, not 2. -/
theorem C7_counterexample :
    (readSeq (writeSeq (fun _ => 0) 0 0 [(1, 2)]).1 0 0
        ([(1, 2)].map Prod.fst)).1 = [0] ∧
      [(1, 2)].map Prod.snd = [2] ∧ ([0] : List Nat) ≠ [2] := by
  refine ⟨by decide, by decide, by decide⟩

theorem C7_witness :
    readSeq (writeSeq (fun _ => 0) 0 0 [(3, 5)]).1 0 0
        ([(3, 5)].map Prod.fst) =
      ([(3, 5)].map Prod.snd, (writeSeq (fun _ => 0) 0 0 [(3, 5)]).2) :=
  C7_bitpack_roundtrip [(3, 5)] (by decide)

lemma lt_ceilDivN {A s : Nat} (hs : 0 < s) (j : Nat) :
    j < ceilDivN A s ↔ j * s < A := by
  rw [ceilDivN]
  constructor
  · intro h
    have h1 : j + 1 ≤ (A + s - 1) / s := h
    rw [Nat.le_div_iff_mul_le hs] at h1
    have : (j + 1) * s = j * s + s := by ring
    omega
  · intro h
    have h1 : (j + 1) * s ≤ A + s - 1 := by
      have : (j + 1) * s = j * s + s := by ring
      omega
    exact Nat.lt_of_lt_of_le (Nat.lt_succ_self j) (by
      rw [Nat.le_div_iff_mul_le hs]
      exact h1)

lemma ceilDivN_le_self {A s : Nat} (hs : 0 < s) : ceilDivN A s ≤ A := by
  rw [ceilDivN]
  rcases Nat.eq_zero_or_pos A with hA | hA
  · subst hA
    show (0 + s - 1) / s ≤ 0
    rw [Nat.div_eq_of_lt (by omega)]
  · have h : A + s - 1 < (A + 1) * s := by
      have h1 : A ≤ A * s := Nat.le_mul_of_pos_right A hs
      have h2 : (A + 1) * s = A * s + s := by ring
      omega
    have := (Nat.div_lt_iff_lt_mul hs).mpr h
    omega

lemma encLoop_spec (Bsrc : Nat → Nat) (L e n s t : Nat) (hs : 1 ≤ s) :
    ∀ (fuel j : Nat) (D : Nat → Nat),
      ceilDivN (8 * L) s - j ≤ fuel → j ≤ ceilDivN (8 * L) s →
      Bytes256 D → ZeroFrom D (j * t) →
      ∃ W, encLoop Bsrc L e n s t fuel (j * s / 8) (j * s % 8) D
          (j * t / 8) (j * t % 8) =
          (W, ceilDivN (8 * L) s * t / 8, ceilDivN (8 * L) s * t % 8) ∧
        Bytes256 W ∧ ZeroFrom W (ceilDivN (8 * L) s * t) ∧
        (∀ r, r < j * t → bitOf W r = bitOf D r) ∧
        (∀ i, j ≤ i → i < ceilDivN (8 * L) s → ∀ k, k < t →
          bitOf W (i * t + k) = (encBlock Bsrc e n s i).testBit k) := by
  intro fuel
  induction fuel with
  | zero =>
    intro j D hfuel hj hD hZ
    have hjm : j = ceilDivN (8 * L) s := by omega
    subst hjm
    exact ⟨D, by rw [encLoop], hD, hZ, fun r _ => rfl,
      fun i h1 h2 _ _ => absurd h2 (by omega)⟩
  | succ fuel ih =>
    intro j D hfuel hj hD hZ
    rcases eq_or_lt_of_le hj with hjm | hjlt
    · have hcond : ¬ (j * s / 8 < L) := by
        intro hcon
        rw [Nat.div_lt_iff_lt_mul (by omega)] at hcon
        have : j < ceilDivN (8 * L) s := (lt_ceilDivN hs j).mpr (by omega)
        omega
      rw [hjm]
      refine ⟨D, ?_, hD, hjm ▸ hZ, fun r _ => rfl,
        fun i h1 h2 _ _ => absurd h2 (by omega)⟩
      rw [encLoop, if_neg (hjm ▸ hcond)]
    · have hcond : j * s / 8 < L := by
        rw [Nat.div_lt_iff_lt_mul (by omega)]
        have := (lt_ceilDivN hs j).mp hjlt
        omega
      have hjs : 8 * (j * s / 8) + j * s % 8 = j * s := by omega
      have hjt : 8 * (j * t / 8) + j * t % 8 = j * t := by omega
      obtain ⟨W1, hwrun, hW1b, hW1z, hW1low, hW1win⟩ :=
        writebits_spec D (j * t / 8) (j * t % 8) t
          (ab_mod_n (streamVal Bsrc (j * s) s) e n) (by omega) hD
          (by rw [hjt]; exact hZ)
      rw [hjt] at hwrun hW1z hW1low hW1win
      have h1s : j * s + s = (j + 1) * s := by ring
      have h1t : j * t + t = (j + 1) * t := by ring
      obtain ⟨W, hrun, hWb, hWz, hWlow, hWwin⟩ :=
        ih (j + 1) W1 (by omega) (by omega) hW1b (by rw [← h1t]; exact hW1z)
      refine ⟨W, ?_, hWb, hWz, ?_, ?_⟩
      · rw [encLoop, if_pos hcond]
        simp only [readbits_spec Bsrc (j * s / 8) (j * s % 8) s (by omega),
          hjs, hwrun]
        rw [h1s, h1t]
        exact hrun
      · intro r hr
        rw [hWlow r (by omega), hW1low r hr]
      · intro i hji him k hk
        rcases eq_or_lt_of_le hji with hij | hij
        · subst hij
          rw [hWlow (j * t + k) (by omega), hW1win k hk, encBlock]
        · exact hWwin i hij him k hk

lemma decLoop_spec (C : Nat → Nat) (L d n t w : Nat) (hw : 1 ≤ w) :
    ∀ (fuel j : Nat) (D : Nat → Nat),
      ceilDivN (8 * L + 8) w - j ≤ fuel → j ≤ ceilDivN (8 * L + 8) w →
      Bytes256 D → ZeroFrom D (j * w) →
      ∃ W, decLoop C L d n t w fuel (j * t / 8) (j * t % 8) D
          (j * w / 8) (j * w % 8) =
          (W, ceilDivN (8 * L + 8) w * w / 8, ceilDivN (8 * L + 8) w * w % 8) ∧
        Bytes256 W ∧ ZeroFrom W (ceilDivN (8 * L + 8) w * w) ∧
        (∀ r, r < j * w → bitOf W r = bitOf D r) ∧
        (∀ i, j ≤ i → i < ceilDivN (8 * L + 8) w → ∀ k, k < w →
          bitOf W (i * w + k) = (decBlock C d n t i).testBit k) := by
  intro fuel
  induction fuel with
  | zero =>
    intro j D hfuel hj hD hZ
    have hjm : j = ceilDivN (8 * L + 8) w := by omega
    subst hjm
    exact ⟨D, by rw [decLoop], hD, hZ, fun r _ => rfl,
      fun i h1 h2 _ _ => absurd h2 (by omega)⟩
  | succ fuel ih =>
    intro j D hfuel hj hD hZ
    rcases eq_or_lt_of_le hj with hjm | hjlt
    · have hcond : ¬ (j * w / 8 ≤ L) := by
        intro hcon
        have h1 : j * w / 8 < L + 1 := by omega
        rw [Nat.div_lt_iff_lt_mul (by omega)] at h1
        have : j < ceilDivN (8 * L + 8) w := (lt_ceilDivN hw j).mpr (by omega)
        omega
      rw [hjm]
      refine ⟨D, ?_, hD, hjm ▸ hZ, fun r _ => rfl,
        fun i h1 h2 _ _ => absurd h2 (by omega)⟩
      rw [decLoop, if_neg (hjm ▸ hcond)]
    · have hcond : j * w / 8 ≤ L := by
        have h1 := (lt_ceilDivN hw j).mp hjlt
        have h2 : j * w / 8 < L + 1 := by
          rw [Nat.div_lt_iff_lt_mul (by omega)]
          omega
        omega
      have hjs : 8 * (j * t / 8) + j * t % 8 = j * t := by omega
      have hjt : 8 * (j * w / 8) + j * w % 8 = j * w := by omega
      obtain ⟨W1, hwrun, hW1b, hW1z, hW1low, hW1win⟩ :=
        writebits_spec D (j * w / 8) (j * w % 8) w
          (ab_mod_n (streamVal C (j * t) t) d n) (by omega) hD
          (by rw [hjt]; exact hZ)
      rw [hjt] at hwrun hW1z hW1low hW1win
      have h1s : j * t + t = (j + 1) * t := by ring
      have h1t : j * w + w = (j + 1) * w := by ring
      obtain ⟨W, hrun, hWb, hWz, hWlow, hWwin⟩ :=
        ih (j + 1) W1 (by omega) (by omega) hW1b (by rw [← h1t]; exact hW1z)
      refine ⟨W, ?_, hWb, hWz, ?_, ?_⟩
      · rw [decLoop, if_pos hcond]
        simp only [readbits_spec C (j * t / 8) (j * t % 8) t (by omega),
          hjs, hwrun]
        rw [h1s, h1t]
        exact hrun
      · intro r hr
        rw [hWlow r (by omega), hW1low r hr]
      · intro i hji him k hk
        rcases eq_or_lt_of_le hji with hij | hij
        · subst hij
          rw [hWlow (j * w + k) (by omega), hW1win k hk, decBlock]
        · exact hWwin i hij him k hk

lemma wrap32_of_range {x : Int} (h1 : -(2 ^ 31) ≤ x) (h2 : x < 2 ^ 31) :
    wrap32 x = x := by
  simp only [wrap32, U32]
  split <;> omega

lemma tdiv_ofNat (m s : Nat) : (m : Int).tdiv (s : Int) = ((m / s : Nat) : Int) :=
  rfl

lemma u32dec_eq {x : Nat} (h1 : 1 ≤ x) (h2 : x ≤ U32) : u32dec x = x - 1 := by
  simp only [U32] at h2
  simp only [u32dec, U32]
  omega

lemma bitsizeAux_le (x : Nat) : ∀ i, bitsizeAux x i ≤ i + 1 := by
  intro i
  induction i with
  | zero => simp [bitsizeAux]
  | succ i ih =>
    rw [bitsizeAux]
    split
    · omega
    · omega

lemma bitsize_le (x : Nat) : bitsize x ≤ 32 := bitsizeAux_le x 31

lemma decrypt_check_iff (L : Int) (b s : Nat) :
    decrypt_check L b s = true ↔
      (L < 0 ∨ wrap32 (L - ((b : Int) - 8)) <
          -wrap32 (L.tdiv (s : Int) + 1 + 2 * 4)) ∨
        wrap32 (L - ((b : Int) - 8)) > wrap32 (L.tdiv (s : Int) + 1 + 2 * 4) := by
  simp only [decrypt_check, Bool.or_eq_true, decide_eq_true_eq]

/-- C8.  The header sanity check of `decrypt_file`.  (1) A ciphertext
whose 8-byte header holds a negative value is always rejected with the
corrupt-file error and no output is produced.  (2) For in-range inputs —
file length below 2^31, header value `L` in `[0, 2^30)`, modulus
`2 ≤ n < 2^32` — decryption fails with the corrupt-file error exactly
when the remaining ciphertext length `buflen - 8` deviates from the
header length `L` by more than `L / dstbits + 9` bytes (where
`dstbits = bitsize n - 1` and the constant 9 is `1 + 2 * sizeof(int)`). -/
theorem C8_corrupt_check (c : List Nat) (d n : Nat) :
    (hdr c < 0 → decrypt_file c d n = Except.error DecError.corrupt) ∧
    (8 ≤ c.length → c.length < 2 ^ 31 → 2 ≤ n → n < U32 →
      0 ≤ hdr c → hdr c < 2 ^ 30 →
      (decrypt_file c d n = Except.error DecError.corrupt ↔
        (hdr c).toNat / (bitsize n - 1) + 9 <
          (hdr c - ((c.length : Int) - 8)).natAbs)) := by
  constructor
  · intro hL
    have hcheck : decrypt_check (hdr c) c.length (u32dec (bitsize n)) = true :=
      (decrypt_check_iff _ _ _).mpr (Or.inl (Or.inl hL))
    rw [decrypt_file, if_pos hcheck]
  · intro hlen8 hlen hn hnu hL0 hL
    have hbs2 : 2 ≤ bitsize n := bitsize_ge_two n hn
    have hdst : u32dec (bitsize n) = bitsize n - 1 :=
      u32dec_eq (by omega) (by have := bitsize_le n; simp only [U32]; omega)
    have hfile : (decrypt_file c d n = Except.error DecError.corrupt) ↔
        decrypt_check (hdr c) c.length (u32dec (bitsize n)) = true := by
      cases hB : decrypt_check (hdr c) c.length (u32dec (bitsize n)) with
      | false => rw [decrypt_file, hB]; simp
      | true => rw [decrypt_file, hB]; simp
    rw [hfile, hdst, decrypt_check_iff]
    have hmv : hdr c = (((hdr c).toNat : Nat) : Int) :=
      (Int.toNat_of_nonneg hL0).symm
    have htd : (hdr c).tdiv ((bitsize n - 1 : Nat) : Int) =
        (((hdr c).toNat / (bitsize n - 1) : Nat) : Int) := by
      rw [hmv]
      exact tdiv_ofNat _ _
    rw [htd]
    have hq : ∀ q : Nat, (hdr c).toNat / (bitsize n - 1) = q →
        q ≤ (hdr c).toNat := by
      intro q hgq
      rw [← hgq]
      exact Nat.div_le_self _ _
    generalize hgq : (hdr c).toNat / (bitsize n - 1) = q
    have hqle : q ≤ (hdr c).toNat := hq q hgq
    have hwl : wrap32 (hdr c - ((c.length : Int) - 8)) =
        hdr c - ((c.length : Int) - 8) :=
      wrap32_of_range (by omega) (by omega)
    have hwm : wrap32 ((q : Int) + 1 + 2 * 4) = (q : Int) + 1 + 2 * 4 :=
      wrap32_of_range (by omega) (by omega)
    rw [hwl, hwm]
    clear hq hmv hdst hbs2 hgq hfile
    omega

/-- C8 witness: the header bytes `00..00 80` decode to the negative
value `-2^63`, so decryption reports a corrupt file; the header bytes
`01 00..00` of an 8-byte file decode to `L = 1` with deviation
`|1 - 0| = 1 ≤ 1/2 + 9`, so the check passes. -/
theorem C8_witness :
    decrypt_file [0, 0, 0, 0, 0, 0, 0, 128] 1 4 = Except.error DecError.corrupt ∧
    ¬ decrypt_file [1, 0, 0, 0, 0, 0, 0, 0] 1 4 = Except.error DecError.corrupt := by
  constructor
  · exact (C8_corrupt_check [0, 0, 0, 0, 0, 0, 0, 128] 1 4).1 (by decide)
  · intro h
    have h2 := ((C8_corrupt_check [1, 0, 0, 0, 0, 0, 0, 0] 1 4).2 (by decide)
      (by decide) (by decide) (by decide) (by decide) (by decide)).mp h
    exact absurd h2 (by decide)

/-- C8 counterexample to the unrestricted claim: the 16-byte ciphertext
with header `L = 2^32` has actual remaining length 8, deviating from `L`
by `2^32 - 8`, vastly beyond the tolerance `L / 21 + 9` — yet decryption
does **not** fail with the corrupt-file error, because `lendiff` is an
`int` and `2^32 - 8` truncates to `-8`. -/
theorem C8_counterexample :
    decrypt_file [0, 0, 0, 0, 1, 0, 0, 0, 0, 0, 0, 0, 0, 0, 0, 0] 1 2582299 ≠
      Except.error DecError.corrupt ∧
    (hdr [0, 0, 0, 0, 1, 0, 0, 0, 0, 0, 0, 0, 0, 0, 0, 0]).toNat /
        (bitsize 2582299 - 1) + 9 <
      (hdr [0, 0, 0, 0, 1, 0, 0, 0, 0, 0, 0, 0, 0, 0, 0, 0] -
        (((16 : Nat) : Int) - 8)).natAbs := by
  constructor
  · rw [decrypt_file, if_neg (by decide)]
    exact fun h => Except.noConfusion h
  · decide

lemma ceilDivN_mul_ge {A s : Nat} (hs : 0 < s) : A ≤ ceilDivN A s * s := by
  by_contra h
  push_neg at h
  have h2 := (lt_ceilDivN hs (ceilDivN A s)).mpr h
  omega

lemma ceilDivN_mono {A B s : Nat} (h : A ≤ B) : ceilDivN A s ≤ ceilDivN B s :=
  Nat.div_le_div_right (by omega)

lemma prime_pow_modEq (P m b : Nat) (hP : P.Prime) (hm : (P - 1) ∣ m) :
    b ^ (m + 1) ≡ b [MOD P] := by
  by_cases hdvd : P ∣ b
  · have h1 : b ≡ 0 [MOD P] := Nat.modEq_zero_iff_dvd.mpr hdvd
    calc b ^ (m + 1) ≡ 0 ^ (m + 1) [MOD P] := h1.pow (m + 1)
      _ = 0 := zero_pow (Nat.succ_ne_zero m)
      _ ≡ b [MOD P] := h1.symm
  · have hco : Nat.Coprime b P :=
      Nat.Coprime.symm ((Nat.Prime.coprime_iff_not_dvd hP).mpr hdvd)
    have hfer : b ^ (P - 1) ≡ 1 [MOD P] := by
      have h := Nat.ModEq.pow_totient hco
      rwa [Nat.totient_prime hP] at h
    obtain ⟨c, hc⟩ := hm
    calc b ^ (m + 1) = (b ^ (P - 1)) ^ c * b := by rw [hc, pow_succ, pow_mul]
      _ ≡ 1 ^ c * b [MOD P] := Nat.ModEq.mul_right b (hfer.pow c)
      _ = b := by rw [one_pow, one_mul]

/-- Correctness of the textbook-RSA exponent identity on `n = p * q` for
distinct primes: `b ^ (k*(p-1)*(q-1) + 1) ≡ b (mod p*q)` for every `b`
(also non-coprime residues, since `p*q` is squarefree). -/
lemma rsa_exponent (p q b k : Nat) (hp : p.Prime) (hq : q.Prime) (hpq : p ≠ q) :
    b ^ (k * ((p - 1) * (q - 1)) + 1) ≡ b [MOD p * q] := by
  have hcop : Nat.Coprime p q := (Nat.coprime_primes hp hq).mpr hpq
  rw [← Nat.modEq_and_modEq_iff_modEq_mul hcop]
  exact ⟨prime_pow_modEq p _ b hp ⟨k * (q - 1), by ring⟩,
    prime_pow_modEq q _ b hq ⟨k * (p - 1), by ring⟩⟩

/-- Round trip of one plaintext block through the two `ab_mod_n` calls of
`encrypt_file` and `decrypt_file`. -/
lemma rsa_block (p q e d b : Nat) (hp : p.Prime) (hq : q.Prime) (hpq : p ≠ q)
    (he : e < U32) (hd : d < U32) (hnU : p * q < U32)
    (hf1 : 1 < (p - 1) * (q - 1))
    (hed : d * e % ((p - 1) * (q - 1)) = 1 % ((p - 1) * (q - 1)))
    (hb : b < p * q) :
    ab_mod_n (ab_mod_n b e (p * q)) d (p * q) = b := by
  have hn0 : 0 < p * q := Nat.mul_pos hp.pos hq.pos
  rw [ab_mod_n_spec b e _ he hn0 hnU, ab_mod_n_spec _ d _ hd hn0 hnU,
    ← Nat.pow_mod, ← pow_mul]
  rw [Nat.mod_eq_of_lt hf1] at hed
  have h2 := Nat.div_add_mod (d * e) ((p - 1) * (q - 1))
  rw [hed] at h2
  have hk : e * d = d * e / ((p - 1) * (q - 1)) * ((p - 1) * (q - 1)) + 1 :=
    calc e * d = d * e := mul_comm e d
      _ = (p - 1) * (q - 1) * (d * e / ((p - 1) * (q - 1))) + 1 := h2.symm
      _ = d * e / ((p - 1) * (q - 1)) * ((p - 1) * (q - 1)) + 1 := by
          rw [mul_comm ((p - 1) * (q - 1))]
  rw [hk]
  have hmeq := rsa_exponent p q b (d * e / ((p - 1) * (q - 1))) hp hq hpq
  rw [Nat.ModEq] at hmeq
  rw [hmeq, Nat.mod_eq_of_lt hb]

lemma le64_length (L : Nat) : (le64 L).length = 8 := rfl

lemma hdr_le64 (L : Nat) (rest : List Nat) (hL : L < 2 ^ 63) :
    hdr (le64 L ++ rest) = (L : Int) := by
  have h0 : (le64 L ++ rest).getD 0 0 = L % 256 := rfl
  have h1 : (le64 L ++ rest).getD 1 0 = L / 2 ^ 8 % 256 := rfl
  have h2 : (le64 L ++ rest).getD 2 0 = L / 2 ^ 16 % 256 := rfl
  have h3 : (le64 L ++ rest).getD 3 0 = L / 2 ^ 24 % 256 := rfl
  have h4 : (le64 L ++ rest).getD 4 0 = L / 2 ^ 32 % 256 := rfl
  have h5 : (le64 L ++ rest).getD 5 0 = L / 2 ^ 40 % 256 := rfl
  have h6 : (le64 L ++ rest).getD 6 0 = L / 2 ^ 48 % 256 := rfl
  have h7 : (le64 L ++ rest).getD 7 0 = L / 2 ^ 56 % 256 := rfl
  simp only [hdr, h0, h1, h2, h3, h4, h5, h6, h7]
  have hu : L % 256 + L / 2 ^ 8 % 256 * 2 ^ 8 + L / 2 ^ 16 % 256 * 2 ^ 16 +
      L / 2 ^ 24 % 256 * 2 ^ 24 + L / 2 ^ 32 % 256 * 2 ^ 32 +
      L / 2 ^ 40 % 256 * 2 ^ 40 + L / 2 ^ 48 % 256 * 2 ^ 48 +
      L / 2 ^ 56 % 256 * 2 ^ 56 = L := by omega
  rw [hu, if_pos hL]

lemma getD_le64_append (L : Nat) (data : List Nat) (i : Nat) :
    (le64 L ++ data).getD (8 + i) 0 = data.getD i 0 := by
  rw [List.getD_append_right (le64 L) data 0 (8 + i) (by rw [le64_length]; omega)]
  rw [le64_length]
  congr 1
  omega

lemma byte_eq_of_testBit_lt {x y : Nat} (hx : x < 256) (hy : y < 256)
    (h : ∀ j, j < 8 → x.testBit j = y.testBit j) : x = y := by
  apply Nat.eq_of_testBit_eq
  intro j
  by_cases hj : j < 8
  · exact h j hj
  · have h8 : (256 : Nat) ≤ 2 ^ j :=
      calc (256 : Nat) = 2 ^ 8 := rfl
        _ ≤ 2 ^ j := Nat.pow_le_pow_right (by omega) (by omega)
    rw [Nat.testBit_lt_two_pow (by omega), Nat.testBit_lt_two_pow (by omega)]

/-- Characterization of `encrypt_file`: the output is the 8-byte header
followed by the bytes of a bit stream `W` whose consecutive
`destbits`-wide windows hold the encrypted `srcbits`-wide blocks of the
input. -/
lemma encrypt_file_spec (B : List Nat) (e n : Nat) (hn2 : 2 ≤ bitsize n) :
    ∃ W, encrypt_file B e n =
        le64 B.length ++
          (List.range (ceilDivN (8 * B.length) (bitsize n - 1) * bitsize n / 8 +
            1)).map W ∧
      Bytes256 W ∧
      ZeroFrom W (ceilDivN (8 * B.length) (bitsize n - 1) * bitsize n) ∧
      (∀ i, i < ceilDivN (8 * B.length) (bitsize n - 1) → ∀ k, k < bitsize n →
        bitOf W (i * bitsize n + k) =
          (encBlock (ofList B) e n (bitsize n - 1) i).testBit k) := by
  have hdst : u32dec (bitsize n) = bitsize n - 1 :=
    u32dec_eq (by omega) (by have := bitsize_le n; simp only [U32]; omega)
  have hs : 1 ≤ bitsize n - 1 := by omega
  obtain ⟨W, hrun, hWb, hWz, _, hWwin⟩ :=
    encLoop_spec (ofList B) B.length e n (bitsize n - 1) (bitsize n) hs
      (8 * B.length + 1) 0 (fun _ => 0)
      (by have := ceilDivN_le_self (A := 8 * B.length) hs; omega)
      (by omega)
      (fun j => by norm_num)
      (fun r _ => by simp [bitOf])
  simp only [Nat.zero_mul, Nat.zero_div, Nat.zero_mod] at hrun hWz hWwin
  refine ⟨W, ?_, hWb, hWz, fun i him => hWwin i (Nat.zero_le i) him⟩
  simp only [encrypt_file]
  rw [hdst, hrun]

lemma two_pow_bitsize_pred_le {n : Nat} (hn2 : 2 ≤ n) (hnU : n < U32) :
    2 ^ (bitsize n - 1) ≤ n := by
  have ht2 := bitsize_ge_two n hn2
  have htsz := bitsize_eq_size n hn2 hnU
  by_contra hcon
  push_neg at hcon
  have := Nat.size_le.mpr hcon
  omega

/-- Size bounds for the ciphertext body: the number of data bytes
written by the encryption loop (`dest_text - destbuf + 1 = dp + 1`)
brackets the plaintext length `L` within the tolerance of the header
check. -/
lemma enc_size_bounds {L s t : Nat} (hs : 1 ≤ s) (hsle : s ≤ 31)
    (hts : t = s + 1) :
    L ≤ ceilDivN (8 * L) s * t / 8 ∧
      ceilDivN (8 * L) s * t / 8 ≤ L + L / s + 5 := by
  have hmge : 8 * L ≤ ceilDivN (8 * L) s * s := ceilDivN_mul_ge hs
  have hmle : ceilDivN (8 * L) s * s ≤ 8 * L + s - 1 := by
    rw [ceilDivN]
    exact Nat.div_mul_le_self _ s
  have hdiv := Nat.div_add_mod L s
  have hmod : L % s < s := Nat.mod_lt L (by omega)
  have hmb : ceilDivN (8 * L) s ≤ 8 * (L / s) + 8 := by
    by_contra hcon
    push_neg at hcon
    have h1 : (8 * (L / s) + 9) * s ≤ ceilDivN (8 * L) s * s :=
      mul_le_mul_right' (by omega) s
    have h2 : (8 * (L / s) + 9) * s = 8 * (s * (L / s)) + 9 * s := by ring
    rw [h2] at h1
    omega
  have hmt : ceilDivN (8 * L) s * t =
      ceilDivN (8 * L) s * s + ceilDivN (8 * L) s := by
    rw [hts]
    ring
  constructor
  · rw [Nat.le_div_iff_mul_le (show 0 < 8 by omega)]
    omega
  · omega

/-- The ciphertext produced by `encrypt_file` passes the header sanity
check of `decrypt_file`. -/
lemma roundtrip_check_pass {L s dp : Nat} (_hs : 1 ≤ s)
    (hL : L < 2 ^ 26) (hdpge : L ≤ dp) (hdple : dp ≤ L + L / s + 5) :
    ¬ (decrypt_check ((L : Nat) : Int) (8 + (dp + 1)) s = true) := by
  have hKle : L / s ≤ L := Nat.div_le_self L s
  have htd : ((L : Nat) : Int).tdiv ((s : Nat) : Int) = ((L / s : Nat) : Int) :=
    tdiv_ofNat L s
  have hwm : wrap32 (((L / s : Nat) : Int) + 1 + 2 * 4) =
      ((L / s : Nat) : Int) + 1 + 2 * 4 :=
    wrap32_of_range (by omega) (by omega)
  have hwl : wrap32 (((L : Nat) : Int) - (((8 + (dp + 1) : Nat) : Int) - 8)) =
      ((L : Nat) : Int) - (((8 + (dp + 1) : Nat) : Int) - 8) :=
    wrap32_of_range (by omega) (by omega)
  rw [decrypt_check_iff, htd, hwm, hwl]
  clear htd hwm hwl
  intro hcon
  rcases hcon with (h | h) | h <;> omega

/-- `decrypt_run` on a ciphertext whose header decodes to `Lv` and whose
body bytes form the stream `W`. -/
lemma decrypt_run_eq (c : List Nat) (Lv : Nat) (W : Nat → Nat) (d n : Nat)
    (hhdr : hdr c = (Lv : Int))
    (hdst : u32dec (bitsize n) = bitsize n - 1)
    (hCW : (fun i => c.getD (8 + i) 0) = W) :
    decrypt_run c d n =
      (List.range Lv).map
        (decLoop W Lv d n (bitsize n) (bitsize n - 1) (8 * Lv + 9) 0 0
          (fun _ => 0) 0 0).1 := by
  simp only [decrypt_run]
  rw [hhdr, Int.toNat_ofNat, hdst, hCW]

set_option maxRecDepth 4000 in
/-- The file-level round trip, for any exponent pair whose two
`ab_mod_n` passes restore every `srcbits`-wide block. -/
lemma file_roundtrip (B : List Nat) (e n d : Nat)
    (hn2 : 2 ≤ n) (hnU : n < U32)
    (henc_lt : ∀ v, v < n → ab_mod_n v e n < n)
    (hdec : ∀ v, v < 2 ^ (bitsize n - 1) → ab_mod_n (ab_mod_n v e n) d n = v)
    (hlen : B.length < 2 ^ 26)
    (hbytes : ∀ b ∈ B, b < 256) :
    decrypt_file (encrypt_file B e n) d n = Except.ok B := by
  have ht2 : 2 ≤ bitsize n := bitsize_ge_two n hn2
  have htle : bitsize n ≤ 32 := bitsize_le n
  have htsz : bitsize n = Nat.size n := bitsize_eq_size n hn2 hnU
  have hs : 1 ≤ bitsize n - 1 := by omega
  have hnlt : n < 2 ^ bitsize n := by
    rw [htsz]
    exact Nat.lt_size_self n
  have hpow : 2 ^ (bitsize n - 1) ≤ n := two_pow_bitsize_pred_le hn2 hnU
  have hdst : u32dec (bitsize n) = bitsize n - 1 :=
    u32dec_eq (by omega) (by have := bitsize_le n; simp only [U32]; omega)
  obtain ⟨W, hcrun, hWb, hWz, hWwin⟩ := encrypt_file_spec B e n ht2
  obtain ⟨hdpge, hdple⟩ := enc_size_bounds (L := B.length) hs (by omega)
    (show bitsize n = (bitsize n - 1) + 1 by omega)
  have hdataW : ∀ i,
      ((List.range (ceilDivN (8 * B.length) (bitsize n - 1) * bitsize n / 8 +
        1)).map W).getD i 0 = W i := by
    intro i
    rcases lt_or_ge i
        (ceilDivN (8 * B.length) (bitsize n - 1) * bitsize n / 8 + 1) with
      hi | hi
    · simp [List.getD_eq_getElem?_getD, List.getElem?_map, List.getElem?_range,
        hi]
    · rw [List.getD_eq_default _ 0
        (by rw [List.length_map, List.length_range]; exact hi)]
      have hWi : W i = 0 := by
        apply Nat.eq_of_testBit_eq
        intro jj
        rw [Nat.zero_testBit]
        by_cases hjj : jj < 8
        · rw [← bitOf_eq_testBit W i jj hjj]
          apply hWz
          have h1 := Nat.div_add_mod
            (ceilDivN (8 * B.length) (bitsize n - 1) * bitsize n) 8
          omega
        · exact Nat.testBit_lt_two_pow (lt_of_lt_of_le (hWb i) (by
            calc (256 : Nat) = 2 ^ 8 := rfl
              _ ≤ 2 ^ jj := Nat.pow_le_pow_right (by omega) (by omega)))
      exact hWi.symm
  have hCW : (fun i => (le64 B.length ++
      (List.range (ceilDivN (8 * B.length) (bitsize n - 1) * bitsize n / 8 +
        1)).map W).getD (8 + i) 0) = W := by
    funext i
    rw [getD_le64_append]
    exact hdataW i
  rw [hcrun]
  have hclen : (le64 B.length ++
      (List.range (ceilDivN (8 * B.length) (bitsize n - 1) * bitsize n / 8 +
        1)).map W).length =
      8 + (ceilDivN (8 * B.length) (bitsize n - 1) * bitsize n / 8 + 1) := by
    rw [List.length_append, le64_length, List.length_map, List.length_range]
  have hchk : ¬ (decrypt_check
      (hdr (le64 B.length ++
        (List.range (ceilDivN (8 * B.length) (bitsize n - 1) * bitsize n / 8 +
          1)).map W))
      ((le64 B.length ++
        (List.range (ceilDivN (8 * B.length) (bitsize n - 1) * bitsize n / 8 +
          1)).map W).length)
      (u32dec (bitsize n)) = true) := by
    rw [hdr_le64 B.length _ (by omega), hclen, hdst]
    exact roundtrip_check_pass hs hlen hdpge hdple
  obtain ⟨c, hc⟩ : ∃ c, le64 B.length ++
      (List.range (ceilDivN (8 * B.length) (bitsize n - 1) * bitsize n / 8 +
        1)).map W = c := ⟨_, rfl⟩
  have hhdr2 : hdr c = (B.length : Int) := by
    rw [← hc]
    exact hdr_le64 B.length _ (by omega)
  rw [hc] at hCW hchk ⊢
  have hBfalse : decrypt_check (hdr c) c.length (u32dec (bitsize n)) = false := by
    cases hB : decrypt_check (hdr c) c.length (u32dec (bitsize n)) with
    | false => rfl
    | true => exact absurd hB hchk
  rw [decrypt_file, hBfalse]
  simp only [Bool.false_eq_true, if_false, Except.ok.injEq]
  rw [decrypt_run_eq c B.length W d n hhdr2 hdst hCW]
  obtain ⟨V, hdecrun, hVb, hVz, hVlow, hVwin⟩ :=
    decLoop_spec W B.length d n (bitsize n) (bitsize n - 1) hs
      (8 * B.length + 9) 0 (fun _ => 0)
      (by have := ceilDivN_le_self (A := 8 * B.length + 8) hs; omega)
      (by omega)
      (fun j => by norm_num)
      (fun r _ => by simp [bitOf])
  simp only [Nat.zero_mul, Nat.zero_div, Nat.zero_mod] at hdecrun hVwin
  rw [hdecrun]
  apply List.ext_getElem
  · rw [List.length_map, List.length_range]
  · intro r h1 h2
    rw [List.getElem_map, List.getElem_range]
    apply byte_eq_of_testBit_lt (hVb r) (hbytes _ (List.getElem_mem h2))
    intro j hj
    rw [← bitOf_eq_testBit V r j hj]
    have hposlt : 8 * r + j < 8 * B.length := by omega
    have hk : (8 * r + j) % (bitsize n - 1) < bitsize n - 1 :=
      Nat.mod_lt _ (by omega)
    have hcm : (8 * r + j) / (bitsize n - 1) * (bitsize n - 1) =
        (bitsize n - 1) * ((8 * r + j) / (bitsize n - 1)) := mul_comm _ _
    have hdm := Nat.div_add_mod (8 * r + j) (bitsize n - 1)
    have hik : (8 * r + j) / (bitsize n - 1) * (bitsize n - 1) +
        (8 * r + j) % (bitsize n - 1) = 8 * r + j := by omega
    have him : (8 * r + j) / (bitsize n - 1) <
        ceilDivN (8 * B.length + 8) (bitsize n - 1) := by
      rw [lt_ceilDivN hs]
      omega
    have himm : (8 * r + j) / (bitsize n - 1) <
        ceilDivN (8 * B.length) (bitsize n - 1) := by
      rw [lt_ceilDivN hs]
      omega
    have hwin := hVwin ((8 * r + j) / (bitsize n - 1)) (Nat.zero_le _) him
      ((8 * r + j) % (bitsize n - 1)) hk
    rw [← hik, hwin]
    have hsvlt : streamVal (ofList B)
        ((8 * r + j) / (bitsize n - 1) * (bitsize n - 1)) (bitsize n - 1) <
        2 ^ (bitsize n - 1) := streamVal_lt (ofList B) _ _
    have hsv : streamVal W ((8 * r + j) / (bitsize n - 1) * bitsize n)
        (bitsize n) =
        encBlock (ofList B) e n (bitsize n - 1)
          ((8 * r + j) / (bitsize n - 1)) := by
      have h1 := streamVal_of_testBit (B := W) (bitsize n)
        (encBlock (ofList B) e n (bitsize n - 1)
          ((8 * r + j) / (bitsize n - 1)))
        ((8 * r + j) / (bitsize n - 1) * bitsize n)
        (fun k' hk' => hWwin ((8 * r + j) / (bitsize n - 1)) himm k' hk')
      rw [h1]
      have hlt : encBlock (ofList B) e n (bitsize n - 1)
          ((8 * r + j) / (bitsize n - 1)) < n :=
        henc_lt _ (lt_of_lt_of_le hsvlt hpow)
      exact Nat.mod_eq_of_lt (lt_trans hlt hnlt)
    have hblock : decBlock W d n (bitsize n)
        ((8 * r + j) / (bitsize n - 1)) =
        streamVal (ofList B)
          ((8 * r + j) / (bitsize n - 1) * (bitsize n - 1))
          (bitsize n - 1) := by
      rw [decBlock, hsv, encBlock]
      exact hdec _ hsvlt
    rw [hblock, testBit_streamVal, if_pos hk, hik,
      bitOf_eq_testBit (ofList B) r j hj]
    have hofl : ofList B r = B[r] := by
      rw [ofList]
      exact List.getD_eq_getElem B 0 h2
    rw [hofl]

/-- C1.  Round trip: for every key pair emitted by `generate_keys` from
two **distinct** primes `p ≠ q` that pass the overflow check and whose
totient `f = (p-1)(q-1)` is below `2^31` (the range in which the
extended-Euclid inverse is sound), and every byte buffer `B` of length
below `2^26`, decrypting the encryption of `B` reproduces `B` exactly,
bytes and length. -/
theorem C1_roundtrip (p q e n d : Nat) (B : List Nat)
    (hp : p.Prime) (hq : q.Prime) (hpq : p ≠ q)
    (hov : bitsize p + bitsize q ≤ 32)
    (hfr : (p - 1) * (q - 1) < 2 ^ 31)
    (hgen : generate_keys p q = Except.ok (e, n, d))
    (hlen : B.length < 2 ^ 26)
    (hbytes : ∀ b ∈ B, b < 256) :
    decrypt_file (encrypt_file B e n) d n = Except.ok B := by
  have hp2 := hp.two_le
  have hq2 := hq.two_le
  obtain ⟨hspec1, hspec2⟩ := generate_keys_spec p q hp hq hov hfr
  have hf2 : (p - 1) * (q - 1) ≠ 2 := by
    intro hcon
    rw [hspec1 hcon] at hgen
    exact Except.noConfusion hgen
  obtain ⟨e1, d1, hrun2, he2, hinv, hmin, hed, hdlt⟩ := hspec2 hf2
  rw [hrun2] at hgen
  obtain ⟨hee, hnn, hdd⟩ : e1 = e ∧ p * q = n ∧ d1 = d := by
    have h := Except.ok.inj hgen
    simpa [Prod.ext_iff] using h
  subst hee
  subst hnn
  subst hdd
  have hf1 : 1 < (p - 1) * (q - 1) := by
    have hfpos : 1 ≤ (p - 1) * (q - 1) := Nat.mul_pos (by omega) (by omega)
    rcases eq_or_lt_of_le hfpos with h1 | h1
    · exfalso
      have hmul : (p - 1) * (q - 1) = 1 := h1.symm
      have hp1 : p - 1 = 1 := Nat.dvd_one.mp ⟨q - 1, hmul.symm⟩
      have hq1 : q - 1 = 1 := Nat.dvd_one.mp ⟨p - 1, by
        rw [mul_comm]; exact hmul.symm⟩
      exact hpq (by omega)
    · exact h1
  have hnU : p * q < U32 := mul_lt_U32_of_bitsize hp2 hq2 hov
  have hn2 : 2 ≤ p * q :=
    calc 2 = 2 * 1 := rfl
      _ ≤ p * q := Nat.mul_le_mul hp2 (by omega)
  have hn0 : 0 < p * q := by omega
  have heU : e1 < U32 := by
    have hfm1 : HasInvMod ((p - 1) * (q - 1) - 1) ((p - 1) * (q - 1)) := by
      apply gcd_one_hasInvMod (by omega) hfr hf1
      have h : Nat.Coprime ((p - 1) * (q - 1) - 1)
          (1 + ((p - 1) * (q - 1) - 1)) :=
        Nat.coprime_add_self_right.mpr (Nat.coprime_one_right _)
      rwa [show 1 + ((p - 1) * (q - 1) - 1) = (p - 1) * (q - 1) from by omega]
        at h
    have he1 : e1 ≤ (p - 1) * (q - 1) - 1 := hmin _ (by omega) hfm1
    simp only [U32]
    omega
  have hdU : d1 < U32 := by
    simp only [U32]
    omega
  apply file_roundtrip B e1 (p * q) d1 hn2 hnU
  · intro v _
    rw [ab_mod_n_spec v e1 (p * q) heU hn0 hnU]
    exact Nat.mod_lt _ hn0
  · intro v hv
    exact rsa_block p q e1 d1 v hp hq hpq heU hdU hnU hf1 hed
      (lt_of_lt_of_le hv (two_pow_bitsize_pred_le hn2 hnU))
  · exact hlen
  · exact hbytes

/-- C1 witness: with `p = 3`, `q = 11` the generator emits the key pair
`e = 3`, `n = 33`, `d = 7`, and the one-byte file `[82]` survives the
encrypt–decrypt round trip. -/
theorem C1_witness :
    decrypt_file (encrypt_file [82] 3 33) 7 33 = Except.ok [82] :=
  C1_roundtrip 3 11 3 33 7 [82] (by norm_num) (by norm_num) (by decide)
    (by decide) (by decide) (by decide) (by decide) (by decide)

set_option maxRecDepth 16000 in
/-- C1 counterexample to the unrestricted claim: `p = q = 3` passes the
overflow check and yields the key pair `e = 3`, `n = 9`, `d = 3`, but the
byte `3` encrypts to `3^3 mod 9 = 0` and decrypts to `0`, not `3` — with
equal primes the modulus is not squarefree and textbook RSA fails. -/
theorem C1_counterexample :
    Nat.Prime 3 ∧
    generate_keys 3 3 = Except.ok (3, 9, 3) ∧
    decrypt_file (encrypt_file [3] 3 9) 3 9 = Except.ok [0] ∧
    Except.ok [0] ≠ (Except.ok [3] : Except DecError (List Nat)) :=
  ⟨by norm_num, by decide, by decide, by decide⟩

end Rsacrypt
